import Mathlib

/-!
# fog-of-dungeons: the message cache / dispatcher (`go/api/cache/cache.go`)

A shallow embedding of the room/dispatch engine.  Go pointers (`*Puller`,
`*Pusher`, the shared `pusherCh` channel) are references (`Nat`) into an
explicit `Heap`; buffered channels are lists (head = oldest element) with a
capacity; `select` is modelled by `selectReady`, which is given the list of
communications that can proceed and an arbitrary number standing for Go's
pseudo-random choice among them.  Every method is modelled as one atomic
transition (the mutexes and atomics of the source make them so, apart from
the races the source itself documents).
-/

namespace Cache

/-! ## Data model -/

/-- Message represents the wire format of the messages between players
(`Data` is the JSON payload, kept as text). -/
structure Message where
  Content : String
  Data : String
  deriving DecidableEq, Repr, Inhabited

/-- The `error` values the package returns, and the run-time panics its
statements can raise: `close` of an already closed channel, and `make` of a
channel whose capacity the runtime refuses. -/
inductive Err where
  | connectionClosed        -- errors.New("connection closed")
  | roomDeleted             -- errors.New("room deleted")
  | ctxErr                  -- ctx.Err()
  | unauthorized            -- errors.New("unauthorized")
  | serverOverloaded        -- errors.New("server overloaded")
  | notFound                -- errors.New("not found")
  | expirationNotPositive   -- errors.New("cache expiration must be positive")
  | pullerQueueNotPositive  -- errors.New("pullerQueue must be positive")
  | closeOfClosedChannel    -- panic: close of closed channel
  | makechanSizeOutOfRange  -- panic: makechan: size out of range
  deriving DecidableEq, Repr, Inhabited

/-- Puller is an object to receive messages: `ch` is the content of the
buffered channel, `cap` its capacity, `closed` the atomic flag and
`closedCh` tells whether the channel `closedCh` has been closed. -/
structure Puller where
  ch : List Message
  cap : Nat
  closed : Bool
  closedCh : Bool
  deriving DecidableEq, Repr, Inhabited

/-- Pusher allows to push messages to players; `ch` is a reference to the
room's `pusherCh`. -/
structure Pusher where
  ID : String
  Auth : String
  closed : Bool
  ch : Nat
  deriving DecidableEq, Repr, Inhabited

/-- A buffered channel of messages (`make(chan *Message, cap)`). -/
structure Chan where
  buf : List Message
  cap : Nat
  deriving DecidableEq, Repr, Inhabited

/-- The objects the program allocates, addressed by reference, with one
allocation counter per kind (a reference below the counter is allocated).
`maxChanCap` is a constant of the Go runtime that the repository does not
hold, taken as a parameter: the largest `n` for which
`make(chan *Message, n)` returns a channel on the platform (beyond it `make`
panics with "makechan: size out of range"); it is at least 1 on every
platform. -/
structure Heap where
  pullers : Nat → Puller
  pushers : Nat → Pusher
  chans : Nat → Chan
  nPullers : Nat
  nPushers : Nat
  nChans : Nat
  maxChanCap : Nat
  maxChanCap_pos : 0 < maxChanCap

/-- The room: `cacheEntry` of the source, without its mutex. -/
structure cacheEntry where
  id : String
  auth : String
  closed : Bool
  lastMessages : List (String × Message)
  pusherCh : Nat
  pusher : Option Nat
  pullers : List Nat
  deriving DecidableEq, Repr, Inhabited

/-- Dispatcher: the registry of rooms, without its mutex. -/
structure Dispatcher where
  expiration : Int
  pullerQueue : Nat
  entries : List (String × cacheEntry)
  deriving DecidableEq, Repr, Inhabited

/-- The whole program state: the registry and the heap. -/
structure State where
  d : Dispatcher
  h : Heap

/-! ## Go maps and `select` -/

/-- Go map lookup `m[k]` with the comma-ok form. -/
def goMapGet {β : Type} : List (String × β) → String → Option β
  | [], _ => none
  | (k', v) :: rest, k => if k' = k then some v else goMapGet rest k

/-- Go map assignment `m[k] = v`. -/
def goMapSet {β : Type} : List (String × β) → String → β → List (String × β)
  | [], k, v => [(k, v)]
  | (k', v') :: rest, k, v =>
    if k' = k then (k, v) :: rest else (k', v') :: goMapSet rest k v

/-- Go `delete(m, k)`. -/
def goMapDelete {β : Type} : List (String × β) → String → List (String × β)
  | [], _ => []
  | (k', v') :: rest, k =>
    if k' = k then goMapDelete rest k else (k', v') :: goMapDelete rest k

/-- The values of a map, `maps.Values(m)` (in an order Go leaves unspecified). -/
def goMapValues {β : Type} (m : List (String × β)) : List β :=
  m.map Prod.snd

/-- Go's `select`: `ready` lists the communications that can proceed, in
source order; one of them is chosen by `pick` (any of them can be), and
`none` is returned when none can proceed (the `default` case, or blocking). -/
def selectReady {α : Type} (pick : Nat) (ready : List α) : Option α :=
  ready[pick % ready.length]?

/-! ## Puller -/

/-- The drain loop of `Puller.Close`: receive until the channel is empty. -/
def drain : List Message → List Message
  | [] => []
  | _ :: rest => drain rest

/-- Close invalidates the puller and frees the resources. -/
def Puller.Close (p : Puller) : Except Err Puller :=
  if p.closed then
    .ok p -- already closed
  else if p.closedCh then
    .error .closeOfClosedChannel
  else
    .ok { p with closed := true, closedCh := true, ch := drain p.ch }

/-- The communications of the `select` in `tryPush`. -/
inductive TryPushCase where
  | recvClosedCh
  | send
  deriving DecidableEq, Repr

/-- The cases of `tryPush` that can proceed. -/
def Puller.tryPushReady (p : Puller) : List TryPushCase :=
  (if p.closedCh then [TryPushCase.recvClosedCh] else []) ++
  (if p.ch.length < p.cap then [TryPushCase.send] else [])

/-- Non blocking push of `tryPush`, returns if the message was queued. -/
def Puller.tryPush (pick : Nat) (p : Puller) (msg : Message) :
    Except Err (Bool × Puller) :=
  match selectReady pick p.tryPushReady with
  | some .recvClosedCh => .ok (false, p)
  | some .send => .ok (true, { p with ch := p.ch ++ [msg] })
  | none =>
    -- The queue is full, close the channel and disconnect the client.
    match p.Close with
    | .ok p' => .ok (false, p')
    | .error err => .error err

/-- The communications of the `select` in `Pull`. -/
inductive PullCase where
  | recv (m : Message) (rest : List Message)
  | recvClosedCh
  | ctxDone
  deriving DecidableEq, Repr

/-- What a call of `Pull` does: it returns a message, returns an error, or
stays blocked in the `select`. -/
inductive PullResult where
  | msg (m : Message)
  | err (e : Err)
  | blocked
  deriving DecidableEq, Repr

/-- The cases of `Pull` that can proceed. -/
def Puller.pullReady (ctxDone : Bool) (p : Puller) : List PullCase :=
  (match p.ch with
    | m :: rest => [PullCase.recv m rest]
    | [] => []) ++
  (if p.closedCh then [PullCase.recvClosedCh] else []) ++
  (if ctxDone then [PullCase.ctxDone] else [])

/-- Pull waits and returns the message to deliver: the result of the call
and the queue after it. -/
def Puller.Pull (ctxDone : Bool) (pick : Nat) (p : Puller) : PullResult × Puller :=
  if p.closed then
    (.err .connectionClosed, p)
  else
    match selectReady pick (p.pullReady ctxDone) with
    | some (.recv m rest) => (.msg m, { p with ch := rest })
    | some .recvClosedCh => (.err .roomDeleted, p)
    | some .ctxDone => (.err .ctxErr, p)
    | none => (.blocked, p)

/-! ## Pusher -/

/-- The body of `Pusher.Close` for a non-nil receiver. -/
def Pusher.Close (p : Pusher) : Pusher :=
  { p with closed := true }

/-- Close invalidates the pusher: `Pusher.Close` on a pointer, which may be nil. -/
def Heap.PusherClose (h : Heap) : Option Nat → Heap
  | none => h
  | some r => { h with pushers := Function.update h.pushers r (h.pushers r).Close }

/-- What a call of `Push` does: it returns nil (the message is in the
channel), returns an error, or stays blocked in the send. -/
inductive PushResult where
  | ok
  | err (e : Err)
  | blocked
  deriving DecidableEq, Repr

/-- The send statement `p.ch <- msg` on the channel `c`: it proceeds when the
buffer has a free slot and is blocked otherwise. -/
def Heap.send (c : Nat) (msg : Message) (h : Heap) : PushResult × Heap :=
  let ch := h.chans c
  if ch.buf.length < ch.cap then
    (.ok, { h with chans := Function.update h.chans c { ch with buf := ch.buf ++ [msg] } })
  else
    (.blocked, h)

/-- Push pushes the message to connected players: the result of the call and
the heap after it.  `ctxDone` tells whether the context of the call is done;
the context is a parameter of the source too, and the body does not read it. -/
def Pusher.Push (_ctxDone : Bool) (p : Pusher) (msg : Message) (h : Heap) : PushResult × Heap :=
  if p.closed then
    (.err .connectionClosed, h)
  else
    h.send p.ch msg

/-- The method `Push` called through the pointer `r` to a pusher. -/
def Heap.Push (ctxDone : Bool) (r : Nat) (msg : Message) (h : Heap) : PushResult × Heap :=
  (h.pushers r).Push ctxDone msg h

/-! ## The room (`cacheEntry`) -/

/-- The `for _, p := range e.pullers` loop of `dispatch`: the references that
accepted the message, in order, and the heap after the deliveries.  `pick r`
is the choice the `select` of `tryPush` makes for the puller `r`. -/
def dispatchLoop (pick : Nat → Nat) (msg : Message) :
    List Nat → Heap → Except Err (List Nat × Heap)
  | [], h => .ok ([], h)
  | r :: rs, h =>
    match (h.pullers r).tryPush (pick r) msg with
    | .error err => .error err
    | .ok (queued, p') =>
      match dispatchLoop pick msg rs { h with pullers := Function.update h.pullers r p' } with
      | .error err => .error err
      | .ok (pp, h') => .ok (if queued then r :: pp else pp, h')

/-- The method `dispatch` of the room. -/
def cacheEntry.dispatch (pick : Nat → Nat) (e : cacheEntry) (msg : Message) (h : Heap) :
    Except Err (cacheEntry × Heap) :=
  let lastMessages := goMapSet e.lastMessages msg.Content msg
  match dispatchLoop pick msg e.pullers h with
  | .error err => .error err
  | .ok (pp, h') => .ok ({ e with lastMessages := lastMessages, pullers := pp }, h')

/-- The `for _, p := range e.pullers { p.Close() }` loop of `cacheEntry.Close`. -/
def closeLoop : List Nat → Heap → Except Err Heap
  | [], h => .ok h
  | r :: rs, h =>
    match (h.pullers r).Close with
    | .error err => .error err
    | .ok p' => closeLoop rs { h with pullers := Function.update h.pullers r p' }

/-- The method `Close` of the room. -/
def cacheEntry.Close (e : cacheEntry) (h : Heap) : Except Err (cacheEntry × Heap) :=
  match closeLoop e.pullers (h.PusherClose e.pusher) with
  | .error err => .error err
  | .ok h' => .ok ({ e with closed := true }, h')

/-- The communications of the `select` in `run`. -/
inductive RunCase where
  | recv (msg : Message) (rest : List Message)
  | timer
  deriving DecidableEq, Repr

/-- What one turn of the loop of `run` does. -/
inductive RunStatus where
  | looping   -- a message was dispatched, the loop goes on
  | returned  -- the timer fired, the room is closed and `run` returned
  | blocked   -- nothing can proceed
  deriving DecidableEq, Repr

/-- The cases of the `select` of `run` that can proceed: `timerFired` tells
whether the expiration timer has a value to deliver. -/
def cacheEntry.runReady (timerFired : Bool) (e : cacheEntry) (h : Heap) : List RunCase :=
  (match (h.chans e.pusherCh).buf with
    | m :: rest => [RunCase.recv m rest]
    | [] => []) ++
  (if timerFired then [RunCase.timer] else [])

/-- One turn of the loop of `run` (`run` returns when it is time to delete
the entry). -/
def cacheEntry.runIter (timerFired : Bool) (sel : Nat) (pick : Nat → Nat)
    (e : cacheEntry) (h : Heap) : Except Err (RunStatus × cacheEntry × Heap) :=
  match selectReady sel (e.runReady timerFired h) with
  | some (.recv msg rest) =>
    let c := h.chans e.pusherCh
    let h1 := { h with chans := Function.update h.chans e.pusherCh { c with buf := rest } }
    match e.dispatch pick msg h1 with
    | .error err => .error err
    | .ok (e', h') => .ok (.looping, e', h')
  | some .timer =>
    match e.Close h with
    | .error err => .error err
    | .ok (e', h') => .ok (.returned, e', h')
  | none => .ok (.blocked, e, h)

/-- The method `LastMessages` of the room. -/
def cacheEntry.LastMessages (e : cacheEntry) : List Message :=
  goMapValues e.lastMessages

/-- The method `NewPuller` of the room: the result (the new reference, or
the error), and the room and the heap after the call.  When the runtime
refuses the capacity, `make(chan *Message, queueSize)` panics before anything
is changed, and the panic unwinds through the deferred unlocks: the room and
the heap are as they were. -/
def cacheEntry.NewPuller (queueSize : Nat) (e : cacheEntry) (h : Heap) :
    Except Err Nat × cacheEntry × Heap :=
  if e.closed then
    (.error .connectionClosed, e, h)
  else if h.maxChanCap < queueSize then
    (.error .makechanSizeOutOfRange, e, h)
  else
    let r := h.nPullers
    let p : Puller := { ch := [], cap := queueSize, closed := false, closedCh := false }
    (.ok r, { e with pullers := e.pullers ++ [r] },
      { h with pullers := Function.update h.pullers r p, nPullers := r + 1 })

/-- The method `NewPusher` of the room: the result (the new reference, or
the error), and the room and the heap after the call. -/
def cacheEntry.NewPusher (e : cacheEntry) (h : Heap) : Except Err Nat × cacheEntry × Heap :=
  if e.closed then
    (.error .connectionClosed, e, h)
  else
    let h1 := h.PusherClose e.pusher
    let r := h1.nPushers
    let p : Pusher := { ID := e.id, Auth := e.auth, closed := false, ch := e.pusherCh }
    (.ok r, { e with pusher := some r },
      { h1 with pushers := Function.update h1.pushers r p, nPushers := r + 1 })

/-- The function `newCacheEntry`: the channel is allocated with capacity 1
(which every platform accepts, `Heap.maxChanCap_pos`) and the result of
`e.NewPusher()` is dropped, as in the source. -/
def newCacheEntry (id auth : String) (h : Heap) : cacheEntry × Heap :=
  let c := h.nChans
  let h1 := { h with chans := Function.update h.chans c { buf := [], cap := 1 }, nChans := c + 1 }
  let e : cacheEntry :=
    { id := id, auth := auth, closed := false, lastMessages := [], pusherCh := c,
      pusher := none, pullers := [] }
  let (_, e', h') := e.NewPusher h1
  (e', h')

/-! ## The registry (`Dispatcher`) -/

/-- NewDispatcher returns a new Dispatcher. -/
def NewDispatcher (expiration pullerQueue : Int) : Except Err Dispatcher :=
  if expiration ≤ 0 then
    .error .expirationNotPositive
  else if pullerQueue ≤ 0 then
    .error .pullerQueueNotPositive
  else
    .ok { expiration := expiration, pullerQueue := pullerQueue.toNat, entries := [] }

/-- The alphabet of the generated room identifiers. -/
def idAlphabet : List Char :=
  "23456789abcdefghijkmnpqrstuvwxyzABCDEFGHJKLMNPQRSTUVWXYZ".toList

/-- The loop of `genID`: `for i := now; i > 0; i = i / mod`, with `mod` the
length of the alphabet; each turn appends the rune `idAlphabet[i%mod]`. -/
def genIDLoop (i : Nat) : List Char :=
  if h : 0 < i then
    idAlphabet.get ⟨i % idAlphabet.length, Nat.mod_lt i (by decide)⟩ ::
      genIDLoop (i / idAlphabet.length)
  else
    []
termination_by i
decreasing_by exact Nat.div_lt_self h (by decide)

/-- The function `genID`, of the Unix time `now` that it reads. -/
def genID (now : Int) : String :=
  String.mk (genIDLoop now.toNat)

/-- The tail of `Dispatcher.NewPusher`, from `if _, ok := d.entries[id]; ok`:
the room `id` is created unless the registry has one. -/
def Dispatcher.createEntry (id auth : String) (st : State) :
    Except Err (Option Nat) × State :=
  if (goMapGet st.d.entries id).isSome then
    (.error .serverOverloaded, st)
  else
    let (e, h') := newCacheEntry id auth st.h
    (.ok e.pusher, { d := { st.d with entries := goMapSet st.d.entries id e }, h := h' })

/-- The method `Dispatcher.NewPusher`: the result (the returned pointer,
`none` being nil, or the error) and the state after the call.  `now` is the
time `genID` reads and `genAuth` the secret that `genAuth()` draws from
`crypto/rand`.  The goroutine the method starts is the room's `run`, whose
turns are the events `run` and `reap` below. -/
def Dispatcher.NewPusher (now : Int) (genAuth : String) (id auth : String) (st : State) :
    Except Err (Option Nat) × State :=
  if id ≠ "" then
    match goMapGet st.d.entries id with
    | some e =>
      if e.auth ≠ auth then
        (.error .unauthorized, st)
      else
        let (res, e', h') := e.NewPusher st.h
        (res.map some, { d := { st.d with entries := goMapSet st.d.entries id e' }, h := h' })
    | none => Dispatcher.createEntry id auth st
  else
    Dispatcher.createEntry (genID now) genAuth st

/-- The first part of `Dispatcher.NewPuller`, up to the return of
`e.NewPuller(d.pullerQueue)`: the lookup of the room and, under the lock of
the room, the attachment of a new queue.  The result is the new queue, or the
error, with the state after it. -/
def Dispatcher.attachPuller (id : String) (st : State) : Except Err Nat × State :=
  match goMapGet st.d.entries id with
  | none => (.error .notFound, st)
  | some e =>
    let (res, e', h') := e.NewPuller st.d.pullerQueue st.h
    (res, { d := { st.d with entries := goMapSet st.d.entries id e' }, h := h' })

/-! ## The transition system -/

/-- The heap of a program that has allocated nothing, on a platform whose
`make` accepts channels of up to `maxChanCap` messages. -/
def Heap.new (maxChanCap : Nat) (hpos : 0 < maxChanCap) : Heap :=
  { pullers := fun _ => default, pushers := fun _ => default, chans := fun _ => default,
    nPullers := 0, nPushers := 0, nChans := 0,
    maxChanCap := maxChanCap, maxChanCap_pos := hpos }

/-- The heap of a program that has allocated nothing, with the limit of a
64-bit Linux: `make` refuses a channel of more than `(2^48 - 96) / 8`
pointers. -/
def Heap.empty : Heap :=
  Heap.new (2 ^ 45 - 12) (by decide)

/-- The atomic actions of the program: the calls of the transport layer on
the registry and on the handles it holds, and the turns of the goroutine of
each room.  The action `newPuller` is the first part of
`Dispatcher.NewPuller` (`Dispatcher.attachPuller`); the rest of the method
only reads. -/
inductive Event where
  | newPusher (now : Int) (genAuth : String) (id auth : String)
  | newPuller (id : String)
  | push (ctxDone : Bool) (r : Nat) (msg : Message)
  | pull (ctxDone : Bool) (pick : Nat) (r : Nat)
  | pullerClose (r : Nat)
  | pusherClose (r : Nat)
  | run (id : String) (timerFired : Bool) (sel : Nat) (pick : Nat → Nat)
  | reap (id : String)

/-- The state after an action, `none` when the action cannot take place
there: a call that returns an error or stays blocked, a handle that was
never handed out, a turn of a `run` that has returned, a `reap` before `run`
returned, or a panic. -/
def State.step (st : State) : Event → Option State
  | .newPusher now genAuth id auth =>
    match Dispatcher.NewPusher now genAuth id auth st with
    | (.ok _, st') => some st'
    | (.error _, _) => none
  | .newPuller id =>
    match Dispatcher.attachPuller id st with
    | (.ok _, st') => some st'
    | (.error _, _) => none
  | .push ctxDone r msg =>
    if r < st.h.nPushers then
      match st.h.Push ctxDone r msg with
      | (.ok, h') => some { st with h := h' }
      | _ => none
    else none
  | .pull ctxDone pick r =>
    if r < st.h.nPullers then
      match (st.h.pullers r).Pull ctxDone pick with
      | (.msg _, p') =>
        some { st with h := { st.h with pullers := Function.update st.h.pullers r p' } }
      | _ => none
    else none
  | .pullerClose r =>
    if r < st.h.nPullers then
      match (st.h.pullers r).Close with
      | .ok p' => some { st with h := { st.h with pullers := Function.update st.h.pullers r p' } }
      | .error _ => none
    else none
  | .pusherClose r =>
    if r < st.h.nPushers then some { st with h := st.h.PusherClose (some r) } else none
  | .run id timerFired sel pick =>
    match goMapGet st.d.entries id with
    | none => none
    | some e =>
      if e.closed then none
      else
        match e.runIter timerFired sel pick st.h with
        | .error _ => none
        | .ok (_, e', h') =>
          some { d := { st.d with entries := goMapSet st.d.entries id e' }, h := h' }
  | .reap id =>
    match goMapGet st.d.entries id with
    | none => none
    | some e =>
      if e.closed then some { st with d := { st.d with entries := goMapDelete st.d.entries id } }
      else none

/-- The state after a sequence of actions. -/
def State.exec (st : State) : List Event → Option State
  | [] => some st
  | ev :: evs =>
    match st.step ev with
    | none => none
    | some st' => st'.exec evs

/-- Whether the action is a method of the registry or the removal of a room,
which hold the lock `d.mu` of the registry. -/
def Event.takesRegistryLock : Event → Bool
  | .newPusher _ _ _ _ => true
  | .newPuller _ => true
  | .reap _ => true
  | _ => false

/-- The state after the actions that other goroutines take while a method of
the registry holds `d.mu`: those actions of `between` that do not need
`d.mu` and can take place, in order. -/
def State.interleave (st : State) : List Event → State
  | [] => st
  | ev :: evs =>
    if ev.takesRegistryLock then st.interleave evs
    else
      match st.step ev with
      | some st' => st'.interleave evs
      | none => st.interleave evs

/-- The method `Dispatcher.NewPuller`: the result (the new queue and the
replay snapshot, or the error) and the state after the call.  The method
holds `d.mu` throughout and takes the lock of the room twice, in
`e.NewPuller` and then in `e.LastMessages`; `between` lists the actions of
the other goroutines between the two, so that the snapshot is read from the
room as they left it.  (The room is looked up again under its key, which no
action of `between` can remove; the case `none` does not occur.) -/
def Dispatcher.NewPuller (between : List Event) (id : String) (st : State) :
    Except Err (Nat × List Message) × State :=
  match Dispatcher.attachPuller id st with
  | (.error err, st1) => (.error err, st1)
  | (.ok r, st1) =>
    let st2 := st1.interleave between
    match goMapGet st2.d.entries id with
    | some e2 => (.ok (r, e2.LastMessages), st2)
    | none => (.ok (r, []), st2)

/-- The states the program can be in: those a sequence of actions reaches
from a new dispatcher, whatever the limit of the platform on the capacity of
a channel. -/
def Reachable (st : State) : Prop :=
  ∃ (expiration pullerQueue : Int) (d : Dispatcher) (maxChanCap : Nat)
    (hpos : 0 < maxChanCap) (evs : List Event),
    NewDispatcher expiration pullerQueue = .ok d ∧
    State.exec { d := d, h := Heap.new maxChanCap hpos } evs = some st

/-! ## Sequences of room actions used by the statements -/

/-- Dispatch the messages of `ds` to the room, one after the other, each with
the choices its `select`s make. -/
def dispatchSeq : List ((Nat → Nat) × Message) → cacheEntry → Heap →
    Except Err (cacheEntry × Heap)
  | [], e, h => .ok (e, h)
  | (pick, msg) :: ds, e, h =>
    match e.dispatch pick msg h with
    | .error err => .error err
    | .ok (e', h') => dispatchSeq ds e' h'

/-- The actions on a room and on the queues attached to it among which the
order of delivery is observed: a dispatch by the loop of the room, a `Pull`
or a `Close` by the owner of a queue, and a call of `NewPuller` on the room
(which attaches a new queue, or is refused and changes nothing). -/
inductive RoomEvent where
  | dispatch (pick : Nat → Nat) (msg : Message)
  | pull (ctxDone : Bool) (pick : Nat) (r : Nat)
  | pullerClose (r : Nat)
  | newPuller (queueSize : Nat)

/-- The messages dispatched by a sequence of room actions, in order. -/
def dispatched : List RoomEvent → List Message
  | [] => []
  | .dispatch _ msg :: evs => msg :: dispatched evs
  | _ :: evs => dispatched evs

/-- What a `Pull` on the queue `r` adds to the messages received from the
queue `q`: the message, when the call returned one and `r` is `q`. -/
def received (q r : Nat) : PullResult → List Message
  | .msg m => if r = q then [m] else []
  | _ => []

/-- Run a sequence of room actions: the messages that the successful `Pull`s
on the queue `q` returned, in order, and the room and the heap at the end. -/
def roomTrace (q : Nat) : List RoomEvent → cacheEntry → Heap →
    Except Err (List Message × cacheEntry × Heap)
  | [], e, h => .ok ([], e, h)
  | .dispatch pick msg :: evs, e, h =>
    match e.dispatch pick msg h with
    | .error err => .error err
    | .ok (e', h') => roomTrace q evs e' h'
  | .pull ctxDone pick r :: evs, e, h =>
    let res := (h.pullers r).Pull ctxDone pick
    match roomTrace q evs e { h with pullers := Function.update h.pullers r res.2 } with
    | .error err => .error err
    | .ok (got, e', h') => .ok (received q r res.1 ++ got, e', h')
  | .pullerClose r :: evs, e, h =>
    match (h.pullers r).Close with
    | .error err => .error err
    | .ok p' => roomTrace q evs e { h with pullers := Function.update h.pullers r p' }
  | .newPuller queueSize :: evs, e, h =>
    roomTrace q evs (e.NewPuller queueSize h).2.1 (e.NewPuller queueSize h).2.2

/-! ## Auxiliary definitions of the proofs -/

/-- The choice `tryPush` reports for the puller `r` of the heap `h`. -/
def accepts (pick : Nat → Nat) (msg : Message) (h : Heap) (r : Nat) : Bool :=
  match (h.pullers r).tryPush (pick r) msg with
  | .ok (b, _) => b
  | .error _ => false

/-- The puller `tryPush` leaves behind for the puller `r` of the heap `h`. -/
def afterTryPush (pick : Nat → Nat) (msg : Message) (h : Heap) (r : Nat) : Puller :=
  match (h.pullers r).tryPush (pick r) msg with
  | .ok (_, p') => p'
  | .error _ => h.pullers r

/-- The heap `h'` comes later than `h`: nothing was deallocated and no
closed puller or pusher of `h` is open in `h'`. -/
structure Heap.Later (h h' : Heap) : Prop where
  nPullers : h.nPullers ≤ h'.nPullers
  nPushers : h.nPushers ≤ h'.nPushers
  pullers : ∀ r, r < h.nPullers → (h.pullers r).closed = true → (h'.pullers r).closed = true
  pushers : ∀ r, r < h.nPushers → (h.pushers r).closed = true → (h'.pushers r).closed = true

/-- The last message of `msgs` whose category is `c`, if any (the words of
the specification: "the most recently dispatched"). -/
def lastWith (c : String) (msgs : List Message) : Option Message :=
  msgs.reverse.find? (fun m => decide (m.Content = c))

/-- The replay table after the messages `msgs` were filed, from the table `m`. -/
def fileAll (m : List (String × Message)) (msgs : List Message) : List (String × Message) :=
  msgs.foldl (fun t msg => goMapSet t msg.Content msg) m

/-- The flag of the puller and its channel `closedCh` agree. -/
def Puller.FlagsAgree (p : Puller) : Prop :=
  p.closedCh = p.closed

/-- The invariant of the channels: every channel holds at most as many
messages as its capacity, and the channel of every room of the registry has
a positive capacity. -/
structure State.ChansOK (st : State) : Prop where
  bounded : ∀ c, (st.h.chans c).buf.length ≤ (st.h.chans c).cap
  roomCap : ∀ k e, (k, e) ∈ st.d.entries → 0 < (st.h.chans e.pusherCh).cap

/-- The messages of the replay scenario of the specification. -/
def msgPosA : Message := { Content := "pos", Data := "A" }

/-- The second message of the replay scenario. -/
def msgHpB : Message := { Content := "hp", Data := "B" }

/-- The third message of the replay scenario. -/
def msgPosC : Message := { Content := "pos", Data := "C" }

/-- A heap with one open, empty queue of capacity 1, one open pusher and one
empty channel of capacity 1. -/
def exHeap : Heap :=
  { pullers := Function.update Heap.empty.pullers 0
      { ch := [], cap := 1, closed := false, closedCh := false },
    pushers := Function.update Heap.empty.pushers 0
      { ID := "room", Auth := "secret", closed := false, ch := 0 },
    chans := Function.update Heap.empty.chans 0 { buf := [], cap := 1 },
    nPullers := 1, nPushers := 1, nChans := 1,
    maxChanCap := Heap.empty.maxChanCap, maxChanCap_pos := Heap.empty.maxChanCap_pos }

/-- An open room with the queue 0 attached and the pusher 0 active. -/
def exRoom : cacheEntry :=
  { id := "room", auth := "secret", closed := false, lastMessages := [], pusherCh := 0,
    pusher := some 0, pullers := [0] }

/-- A new dispatcher with expiration 1 and queue capacity 1, and nothing allocated. -/
def exInit : State :=
  { d := { expiration := 1, pullerQueue := 1, entries := [] }, h := Heap.empty }

/-- The room "room" with the secret "secret", as `NewPusher` creates it. -/
def roomNew : cacheEntry :=
  { id := "room", auth := "secret", closed := false, lastMessages := [], pusherCh := 0,
    pusher := some 0, pullers := [] }

/-- The state after `NewPusher("room", "secret")` on `exInit`. -/
def stRoom : State :=
  { d := { expiration := 1, pullerQueue := 1, entries := [("room", roomNew)] },
    h := (newCacheEntry "room" "secret" Heap.empty).2 }

/-- The state `stRoom` after a `Push` of `msgPosA` on the handle 0: the
channel of the room is full. -/
def stFull : State :=
  { stRoom with h := (stRoom.h.Push false 0 msgPosA).2 }

/-- The heap `exHeap` after the owner of the queue 0 closed it. -/
def exHeapOwnerClosed : Heap :=
  { pullers := Function.update exHeap.pullers 0
      { ch := [], cap := 1, closed := true, closedCh := true },
    pushers := exHeap.pushers, chans := exHeap.chans,
    nPullers := exHeap.nPullers, nPushers := exHeap.nPushers, nChans := exHeap.nChans,
    maxChanCap := exHeap.maxChanCap, maxChanCap_pos := exHeap.maxChanCap_pos }

/-- A run of room actions: two dispatches, each followed by a `Pull` on the
queue 0. -/
def exEvents : List RoomEvent :=
  [RoomEvent.dispatch (fun _ => 0) msgPosA, RoomEvent.pull false 0 0,
   RoomEvent.dispatch (fun _ => 0) msgHpB, RoomEvent.pull false 0 0]

/-- The least-significant-first base-56 expansion of `t`, each digit written
with the character the alphabet has at that index (the words of the claim on
generated identifiers; `?` stands for a digit without a character, which
never occurs). -/
def base56Id (t : Nat) : List Char :=
  (Nat.digits 56 t).map (fun d => idAlphabet.getD d '?')

/-! # Theorems -/

/-! ## Basic facts -/

theorem idAlphabet_length : idAlphabet.length = 56 := by decide

theorem genIDLoop_zero : genIDLoop 0 = [] := by
  rw [genIDLoop]; simp

theorem selectReady_nil {α : Type} (pick : Nat) : selectReady pick ([] : List α) = none := by
  simp [selectReady]

theorem selectReady_singleton {α : Type} (pick : Nat) (a : α) :
    selectReady pick [a] = some a := by
  simp [selectReady, Nat.mod_one]

theorem selectReady_mem {α : Type} {pick : Nat} {l : List α} {a : α}
    (h : selectReady pick l = some a) : a ∈ l := by
  unfold selectReady at h
  exact List.getElem?_mem h

theorem selectReady_eq_none {α : Type} {pick : Nat} {l : List α}
    (h : selectReady pick l = none) : l = [] := by
  unfold selectReady at h
  rw [List.getElem?_eq_none_iff] at h
  cases l with
  | nil => rfl
  | cons a l =>
    exfalso
    have := Nat.mod_lt pick (Nat.succ_pos l.length)
    simp only [List.length_cons, Nat.succ_eq_add_one] at h this
    omega

theorem drain_eq_nil (l : List Message) : drain l = [] := by
  induction l with
  | nil => rfl
  | cons a l ih => simpa [drain] using ih

theorem Puller.Close_of_closed {p : Puller} (hc : p.closed = true) : p.Close = .ok p := by
  simp [Puller.Close, hc]

theorem Puller.Close_of_open {p : Puller} (hc : p.closed = false) (hs : p.closedCh = false) :
    p.Close = .ok { ch := [], cap := p.cap, closed := true, closedCh := true } := by
  simp [Puller.Close, hc, hs, drain_eq_nil]

theorem Puller.Close_closed {p p' : Puller} (h : p.Close = .ok p') : p'.closed = true := by
  unfold Puller.Close at h
  split at h
  · cases h; assumption
  · split at h
    · cases h
    · cases h; rfl

theorem Puller.tryPush_open_room {p : Puller} (pick : Nat) (msg : Message)
    (hs : p.closedCh = false) (hlt : p.ch.length < p.cap) :
    p.tryPush pick msg = .ok (true, { p with ch := p.ch ++ [msg] }) := by
  simp [Puller.tryPush, Puller.tryPushReady, hs, hlt, selectReady_singleton]

theorem Puller.tryPush_open_full {p : Puller} (pick : Nat) (msg : Message)
    (hc : p.closed = false) (hs : p.closedCh = false) (hfull : ¬ p.ch.length < p.cap) :
    p.tryPush pick msg =
      .ok (false, { ch := [], cap := p.cap, closed := true, closedCh := true }) := by
  simp [Puller.tryPush, Puller.tryPushReady, hs, hfull, selectReady_nil,
    Puller.Close_of_open hc hs]

/-- The three ways `tryPush` can go; it never panics, because the `default`
case is only taken when `closedCh` is still open. -/
theorem Puller.tryPush_cases (pick : Nat) (p : Puller) (msg : Message) :
    (p.tryPush pick msg = .ok (false, p) ∧ p.closedCh = true) ∨
    (p.tryPush pick msg = .ok (true, { p with ch := p.ch ++ [msg] }) ∧
      p.ch.length < p.cap) ∨
    (∃ p', p.tryPush pick msg = .ok (false, p') ∧ p.Close = .ok p' ∧
      p.closedCh = false ∧ ¬ p.ch.length < p.cap) := by
  unfold Puller.tryPush
  cases hsel : selectReady pick p.tryPushReady with
  | some c =>
    have hmem := selectReady_mem hsel
    cases c with
    | recvClosedCh =>
      left
      refine ⟨rfl, ?_⟩
      by_contra hne
      simp [Puller.tryPushReady, hne] at hmem
    | send =>
      right; left
      refine ⟨rfl, ?_⟩
      by_contra hne
      simp [Puller.tryPushReady, hne] at hmem
  | none =>
    right; right
    have hnil := selectReady_eq_none hsel
    have hs : p.closedCh = false := by
      by_contra hne
      simp [Puller.tryPushReady] at hnil
      exact hne (by simpa using hnil.1)
    have hfull : ¬ p.ch.length < p.cap := by
      intro hlt
      simp [Puller.tryPushReady, hlt] at hnil
    by_cases hc : p.closed = true
    · exact ⟨p, by simp [Puller.Close_of_closed hc], Puller.Close_of_closed hc, hs, hfull⟩
    · have hc' : p.closed = false := by simpa using hc
      exact ⟨_, by simp [Puller.Close_of_open hc' hs], Puller.Close_of_open hc' hs, hs, hfull⟩

theorem Puller.tryPush_closed_mono {pick : Nat} {p p' : Puller} {msg : Message} {b : Bool}
    (h : p.tryPush pick msg = .ok (b, p')) (hc : p.closed = true) : p'.closed = true := by
  rcases Puller.tryPush_cases pick p msg with ⟨h1, _⟩ | ⟨h1, _⟩ | ⟨q, h1, h2, _⟩
  · rw [h1] at h; cases h; exact hc
  · rw [h1] at h; cases h; exact hc
  · rw [h1] at h; cases h; exact Puller.Close_closed h2

theorem tryPush_eq_accepts (pick : Nat → Nat) (msg : Message) (h : Heap) (r : Nat) :
    (h.pullers r).tryPush (pick r) msg = .ok (accepts pick msg h r, afterTryPush pick msg h r) := by
  unfold accepts afterTryPush
  rcases Puller.tryPush_cases (pick r) (h.pullers r) msg with ⟨h1, _⟩ | ⟨h1, _⟩ | ⟨q, h1, _⟩ <;>
    simp [h1]

theorem accepts_congr (pick : Nat → Nat) (msg : Message) {h1 h2 : Heap} {r : Nat}
    (heq : h1.pullers r = h2.pullers r) : accepts pick msg h1 r = accepts pick msg h2 r := by
  unfold accepts
  rw [heq]

theorem afterTryPush_congr (pick : Nat → Nat) (msg : Message) {h1 h2 : Heap} {r : Nat}
    (heq : h1.pullers r = h2.pullers r) :
    afterTryPush pick msg h1 r = afterTryPush pick msg h2 r := by
  unfold afterTryPush
  rw [heq]

/-- The loop of `dispatch` never panics and only touches the pullers it is given. -/
theorem dispatchLoop_ok (pick : Nat → Nat) (msg : Message) :
    ∀ (rs : List Nat) (h : Heap), ∃ pp h', dispatchLoop pick msg rs h = .ok (pp, h') ∧
      h'.pushers = h.pushers ∧ h'.chans = h.chans ∧ h'.nPullers = h.nPullers ∧
      h'.nPushers = h.nPushers ∧ h'.nChans = h.nChans ∧
      (∀ r, r ∉ rs → h'.pullers r = h.pullers r) ∧
      (∀ r, (h.pullers r).closed = true → (h'.pullers r).closed = true) ∧
      pp.Sublist rs := by
  intro rs
  induction rs with
  | nil =>
    intro h
    exact ⟨[], h, rfl, rfl, rfl, rfl, rfl, rfl, fun _ _ => rfl, fun _ hc => hc,
      List.Sublist.refl _⟩
  | cons r rs ih =>
    intro h
    have htp := tryPush_eq_accepts pick msg h r
    obtain ⟨pp, h', hl, h1, h2, h3, h4, h5, h6, h7, h8⟩ :=
      ih { h with pullers := Function.update h.pullers r (afterTryPush pick msg h r) }
    refine ⟨if accepts pick msg h r then r :: pp else pp, h', ?_, h1, h2, h3, h4, h5, ?_, ?_, ?_⟩
    · simp [dispatchLoop, htp, hl]
    · intro r' hr'
      have hne : r' ≠ r := fun heq => hr' (heq ▸ List.mem_cons_self _ _)
      have hnin : r' ∉ rs := fun hin => hr' (List.mem_cons_of_mem _ hin)
      rw [h6 r' hnin]
      simp [Function.update_noteq hne]
    · intro r' hc
      apply h7
      by_cases heq : r' = r
      · subst heq
        simp only [Function.update_same]
        exact Puller.tryPush_closed_mono htp hc
      · simpa [Function.update_noteq heq] using hc
    · split
      · exact List.Sublist.cons₂ _ h8
      · exact List.Sublist.cons _ h8

/-- On a duplicate-free list the loop of `dispatch` applies `tryPush` once to
each puller and keeps, in order, those for which it returned true. -/
theorem dispatchLoop_nodup (pick : Nat → Nat) (msg : Message) :
    ∀ (rs : List Nat) (h : Heap), rs.Nodup → ∃ h', dispatchLoop pick msg rs h =
        .ok (rs.filter (accepts pick msg h), h') ∧
      (∀ r, r ∈ rs → h'.pullers r = afterTryPush pick msg h r) := by
  intro rs
  induction rs with
  | nil => intro h _; exact ⟨h, rfl, fun _ hr => absurd hr (List.not_mem_nil _)⟩
  | cons r rs ih =>
    intro h hnd
    have hrn : r ∉ rs := (List.nodup_cons.mp hnd).1
    have htp := tryPush_eq_accepts pick msg h r
    obtain ⟨h', hl, hp⟩ :=
      ih { h with pullers := Function.update h.pullers r (afterTryPush pick msg h r) }
        (List.nodup_cons.mp hnd).2
    obtain ⟨pp2, h2, hl2, _, _, _, _, _, hout, _, _⟩ := dispatchLoop_ok pick msg rs
      { h with pullers := Function.update h.pullers r (afterTryPush pick msg h r) }
    rw [hl] at hl2
    cases hl2
    have hsame : ∀ r', r' ∈ rs →
        (Function.update h.pullers r (afterTryPush pick msg h r)) r' = h.pullers r' := by
      intro r' hr'
      have hne : r' ≠ r := fun heq => hrn (heq ▸ hr')
      simp [Function.update_noteq hne]
    have hfil : rs.filter (accepts pick msg
          { h with pullers := Function.update h.pullers r (afterTryPush pick msg h r) }) =
        rs.filter (accepts pick msg h) := by
      apply List.filter_congr
      intro r' hr'
      exact accepts_congr pick msg (hsame r' hr')
    refine ⟨h', ?_, ?_⟩
    · simp only [dispatchLoop, htp, hl, hfil, List.filter_cons]
    · intro r' hr'
      rcases List.mem_cons.mp hr' with heq | hin
      · subst heq
        rw [hout r' hrn]
        simp
      · rw [hp r' hin]
        exact afterTryPush_congr pick msg (hsame r' hin)

/-! ## Closing is irreversible -/

theorem Heap.Later.refl (h : Heap) : Heap.Later h h :=
  ⟨Nat.le_refl _, Nat.le_refl _, fun _ _ hc => hc, fun _ _ hc => hc⟩

theorem Heap.Later.trans {h1 h2 h3 : Heap} (a : Heap.Later h1 h2) (b : Heap.Later h2 h3) :
    Heap.Later h1 h3 :=
  ⟨Nat.le_trans a.nPullers b.nPullers, Nat.le_trans a.nPushers b.nPushers,
    fun r hr hc => b.pullers r (Nat.lt_of_lt_of_le hr a.nPullers) (a.pullers r hr hc),
    fun r hr hc => b.pushers r (Nat.lt_of_lt_of_le hr a.nPushers) (a.pushers r hr hc)⟩

theorem Heap.PusherClose_later (h : Heap) (o : Option Nat) : Heap.Later h (h.PusherClose o) := by
  cases o with
  | none => exact Heap.Later.refl h
  | some r =>
    refine ⟨Nat.le_refl _, Nat.le_refl _, fun _ _ hc => hc, ?_⟩
    intro r' _ hc
    by_cases heq : r' = r
    · subst heq; simp [Heap.PusherClose, Pusher.Close]
    · simpa [Heap.PusherClose, Function.update_noteq heq] using hc

theorem Heap.PusherClose_closed (h : Heap) (r : Nat) :
    ((h.PusherClose (some r)).pushers r).closed = true := by
  simp [Heap.PusherClose, Pusher.Close]

theorem dispatchLoop_later {pick : Nat → Nat} {msg : Message} {rs pp : List Nat} {h h' : Heap}
    (hl : dispatchLoop pick msg rs h = .ok (pp, h')) : Heap.Later h h' := by
  obtain ⟨pp2, h2, hl2, hpu, _, hn1, hn2, _, _, hmono, _⟩ := dispatchLoop_ok pick msg rs h
  rw [hl] at hl2
  cases hl2
  exact ⟨Nat.le_of_eq hn1.symm, Nat.le_of_eq hn2.symm, fun r _ hc => hmono r hc,
    fun r _ hc => by rw [hpu]; exact hc⟩

/-- The method `dispatch` never panics. -/
theorem cacheEntry.dispatch_ok (pick : Nat → Nat) (e : cacheEntry) (msg : Message) (h : Heap) :
    ∃ pp h', dispatchLoop pick msg e.pullers h = .ok (pp, h') ∧
      e.dispatch pick msg h = .ok ({ e with
        lastMessages := goMapSet e.lastMessages msg.Content msg, pullers := pp }, h') := by
  obtain ⟨pp, h', hl, _⟩ := dispatchLoop_ok pick msg e.pullers h
  exact ⟨pp, h', hl, by simp [cacheEntry.dispatch, hl]⟩

theorem cacheEntry.dispatch_later {pick : Nat → Nat} {e e' : cacheEntry} {msg : Message}
    {h h' : Heap} (hd : e.dispatch pick msg h = .ok (e', h')) : Heap.Later h h' := by
  obtain ⟨pp, h2, hl, hd2⟩ := cacheEntry.dispatch_ok pick e msg h
  rw [hd] at hd2
  cases hd2
  exact dispatchLoop_later hl

/-- The loop of `cacheEntry.Close`, when it does not panic, closes the pullers
it is given and touches nothing else. -/
theorem closeLoop_spec : ∀ (rs : List Nat) (h h' : Heap), closeLoop rs h = .ok h' →
    h'.pushers = h.pushers ∧ h'.chans = h.chans ∧ h'.nPullers = h.nPullers ∧
    h'.nPushers = h.nPushers ∧ h'.nChans = h.nChans ∧
    (∀ r, (h.pullers r).closed = true → (h'.pullers r).closed = true) ∧
    (∀ r, r ∈ rs → (h'.pullers r).closed = true) ∧
    (∀ r, r ∉ rs → h'.pullers r = h.pullers r) := by
  intro rs
  induction rs with
  | nil =>
    intro h h' hl
    cases hl
    exact ⟨rfl, rfl, rfl, rfl, rfl, fun _ hc => hc,
      fun _ hr => absurd hr (List.not_mem_nil _), fun _ _ => rfl⟩
  | cons r rs ih =>
    intro h h' hl
    unfold closeLoop at hl
    cases hc : (h.pullers r).Close with
    | error err => rw [hc] at hl; cases hl
    | ok p' =>
      rw [hc] at hl
      obtain ⟨h1, h2, h3, h4, h5, h6, h7, h8⟩ := ih _ h' hl
      have hp' : p'.closed = true := Puller.Close_closed hc
      have hkeep : ∀ r', ((Function.update h.pullers r p') r').closed = true →
          (h'.pullers r').closed = true := fun r' hx => h6 r' hx
      refine ⟨h1, h2, h3, h4, h5, ?_, ?_, ?_⟩
      · intro r' hx
        apply hkeep
        by_cases heq : r' = r
        · subst heq; simpa using hp'
        · simpa [Function.update_noteq heq] using hx
      · intro r' hr'
        rcases List.mem_cons.mp hr' with heq | hin
        · subst heq
          apply hkeep
          simpa using hp'
        · exact h7 r' hin
      · intro r' hr'
        have hne : r' ≠ r := fun heq => hr' (heq ▸ List.mem_cons_self _ _)
        have hnin : r' ∉ rs := fun hin => hr' (List.mem_cons_of_mem _ hin)
        rw [h8 r' hnin]
        simp [Function.update_noteq hne]

/-- The loop of `cacheEntry.Close` does not panic when no puller it is given
has its `closedCh` closed while its flag says open. -/
theorem closeLoop_ok : ∀ (rs : List Nat) (h : Heap),
    (∀ r, r ∈ rs → (h.pullers r).closedCh = true → (h.pullers r).closed = true) →
    ∃ h', closeLoop rs h = .ok h' := by
  intro rs
  induction rs with
  | nil => intro h _; exact ⟨h, rfl⟩
  | cons r rs ih =>
    intro h hwf
    have hr := hwf r (List.mem_cons_self _ _)
    obtain ⟨p', hp'⟩ : ∃ p', (h.pullers r).Close = .ok p' := by
      by_cases hc : (h.pullers r).closed = true
      · exact ⟨_, Puller.Close_of_closed hc⟩
      · have hc' : (h.pullers r).closed = false := by simpa using hc
        have hs : (h.pullers r).closedCh = false := by
          by_contra hne
          exact hc (hr (by simpa using hne))
        exact ⟨_, Puller.Close_of_open hc' hs⟩
    have hcl : p'.closed = true := Puller.Close_closed hp'
    obtain ⟨h', hl⟩ := ih { h with pullers := Function.update h.pullers r p' } (by
      intro r' hr' hs
      by_cases heq : r' = r
      · subst heq; simpa using hcl
      · have := hwf r' (List.mem_cons_of_mem _ hr')
        simp only [Function.update_noteq heq] at hs ⊢
        exact this hs)
    exact ⟨h', by simp [closeLoop, hp', hl]⟩

theorem closeLoop_later {rs : List Nat} {h h' : Heap} (hl : closeLoop rs h = .ok h') :
    Heap.Later h h' := by
  obtain ⟨hpu, _, hn1, hn2, _, hmono, _, _⟩ := closeLoop_spec rs h h' hl
  exact ⟨Nat.le_of_eq hn1.symm, Nat.le_of_eq hn2.symm, fun r _ hc => hmono r hc,
    fun r _ hc => by rw [hpu]; exact hc⟩

theorem cacheEntry.Close_later {e e' : cacheEntry} {h h' : Heap}
    (hc : e.Close h = .ok (e', h')) : Heap.Later h h' := by
  unfold cacheEntry.Close at hc
  cases hl : closeLoop e.pullers (h.PusherClose e.pusher) with
  | error err => rw [hl] at hc; cases hc
  | ok h2 =>
    rw [hl] at hc
    cases hc
    exact (Heap.PusherClose_later h e.pusher).trans (closeLoop_later hl)

theorem cacheEntry.NewPuller_later (queueSize : Nat) (e : cacheEntry) (h : Heap) :
    Heap.Later h (e.NewPuller queueSize h).2.2 := by
  unfold cacheEntry.NewPuller
  split
  · exact Heap.Later.refl h
  · split
    · exact Heap.Later.refl h
    · refine ⟨Nat.le_succ _, Nat.le_refl _, ?_, fun _ _ hc => hc⟩
      intro r hr hc
      have hne : r ≠ h.nPullers := Nat.ne_of_lt hr
      simpa [Function.update_noteq hne] using hc

theorem cacheEntry.NewPusher_later (e : cacheEntry) (h : Heap) :
    Heap.Later h (e.NewPusher h).2.2 := by
  unfold cacheEntry.NewPusher
  split
  · exact Heap.Later.refl h
  · refine (Heap.PusherClose_later h e.pusher).trans ?_
    have hn : (h.PusherClose e.pusher).nPushers = h.nPushers := by
      cases e.pusher <;> rfl
    refine ⟨Nat.le_refl _, Nat.le_succ _, fun _ _ hc => hc, ?_⟩
    intro r hr hc
    have hne : r ≠ (h.PusherClose e.pusher).nPushers := Nat.ne_of_lt hr
    simpa [Function.update_noteq hne] using hc

/-- The room and the heap that `newCacheEntry` returns. -/
theorem newCacheEntry_eq (id auth : String) (h : Heap) :
    newCacheEntry id auth h =
      ({ id := id, auth := auth, closed := false, lastMessages := [], pusherCh := h.nChans,
         pusher := some h.nPushers, pullers := [] },
       { pullers := h.pullers,
         pushers := Function.update h.pushers h.nPushers
           { ID := id, Auth := auth, closed := false, ch := h.nChans },
         chans := Function.update h.chans h.nChans { buf := [], cap := 1 },
         nPullers := h.nPullers, nPushers := h.nPushers + 1, nChans := h.nChans + 1,
         maxChanCap := h.maxChanCap, maxChanCap_pos := h.maxChanCap_pos }) := by
  simp [newCacheEntry, cacheEntry.NewPusher, Heap.PusherClose]

theorem newCacheEntry_later (id auth : String) (h : Heap) :
    Heap.Later h (newCacheEntry id auth h).2 := by
  rw [newCacheEntry_eq]
  refine ⟨Nat.le_refl _, Nat.le_succ _, fun _ _ hc => hc, ?_⟩
  intro r hr hc
  have hne : r ≠ h.nPushers := Nat.ne_of_lt hr
  simpa [Function.update_noteq hne] using hc

theorem Heap.send_later (c : Nat) (msg : Message) (h : Heap) : Heap.Later h (h.send c msg).2 := by
  unfold Heap.send
  dsimp only
  split
  · exact ⟨Nat.le_refl _, Nat.le_refl _, fun _ _ hc => hc, fun _ _ hc => hc⟩
  · exact Heap.Later.refl h

theorem Heap.Push_later (ctxDone : Bool) (r : Nat) (msg : Message) (h : Heap) :
    Heap.Later h (h.Push ctxDone r msg).2 := by
  unfold Heap.Push Pusher.Push
  split
  · exact Heap.Later.refl h
  · exact Heap.send_later _ _ _

theorem Puller.Pull_closed (ctxDone : Bool) (pick : Nat) (p : Puller) :
    (p.Pull ctxDone pick).2.closed = p.closed := by
  unfold Puller.Pull
  split
  · rfl
  · split <;> rfl

theorem Heap.update_puller_later (h : Heap) (r : Nat) (p' : Puller)
    (hc : (h.pullers r).closed = true → p'.closed = true) :
    Heap.Later h { h with pullers := Function.update h.pullers r p' } := by
  refine ⟨Nat.le_refl _, Nat.le_refl _, ?_, fun _ _ hx => hx⟩
  intro r' _ hx
  by_cases heq : r' = r
  · subst heq; simpa using hc hx
  · simpa [Function.update_noteq heq] using hx

theorem cacheEntry.runIter_later {timerFired : Bool} {sel : Nat} {pick : Nat → Nat}
    {e e' : cacheEntry} {h h' : Heap} {status : RunStatus}
    (hr : e.runIter timerFired sel pick h = .ok (status, e', h')) : Heap.Later h h' := by
  unfold cacheEntry.runIter at hr
  split at hr
  · next msg rest _ =>
    dsimp only at hr
    split at hr
    · cases hr
    · next e2 h2 hd =>
      cases hr
      have hl := cacheEntry.dispatch_later hd
      exact ⟨hl.nPullers, hl.nPushers, hl.pullers, hl.pushers⟩
  · split at hr
    · cases hr
    · next e2 h2 hc =>
      cases hr
      exact cacheEntry.Close_later hc
  · cases hr
    exact Heap.Later.refl h

theorem Dispatcher.createEntry_later (id auth : String) (st : State) :
    Heap.Later st.h (Dispatcher.createEntry id auth st).2.h := by
  unfold Dispatcher.createEntry
  split
  · exact Heap.Later.refl _
  · exact newCacheEntry_later id auth st.h

theorem Dispatcher.NewPusher_heap_later (now : Int) (genAuth id auth : String) (st : State) :
    Heap.Later st.h (Dispatcher.NewPusher now genAuth id auth st).2.h := by
  unfold Dispatcher.NewPusher
  split
  · split
    · next e _ =>
      split
      · exact Heap.Later.refl _
      · exact cacheEntry.NewPusher_later e st.h
    · exact Dispatcher.createEntry_later _ _ _
  · exact Dispatcher.createEntry_later _ _ _

theorem Dispatcher.attachPuller_later (id : String) (st : State) :
    Heap.Later st.h (Dispatcher.attachPuller id st).2.h := by
  unfold Dispatcher.attachPuller
  split
  · exact Heap.Later.refl _
  · next e _ =>
    have := cacheEntry.NewPuller_later st.d.pullerQueue e st.h
    generalize e.NewPuller st.d.pullerQueue st.h = res at this
    obtain ⟨res, e', h'⟩ := res
    exact this

/-- No action reopens a closed puller or pusher, or forgets an allocation. -/
theorem State.step_later {st st' : State} {ev : Event} (hs : st.step ev = some st') :
    Heap.Later st.h st'.h := by
  cases ev with
  | newPusher now genAuth id auth =>
    have := Dispatcher.NewPusher_heap_later now genAuth id auth st
    simp only [State.step] at hs
    generalize Dispatcher.NewPusher now genAuth id auth st = res at this hs
    obtain ⟨res, st2⟩ := res
    cases res with
    | error err => simp at hs
    | ok v => simp at hs; subst hs; exact this
  | newPuller id =>
    have := Dispatcher.attachPuller_later id st
    simp only [State.step] at hs
    generalize Dispatcher.attachPuller id st = res at this hs
    obtain ⟨res, st2⟩ := res
    cases res with
    | error err => simp at hs
    | ok v => simp at hs; subst hs; exact this
  | push ctxDone r msg =>
    have := Heap.Push_later ctxDone r msg st.h
    simp only [State.step] at hs
    split at hs
    · generalize st.h.Push ctxDone r msg = res at this hs
      obtain ⟨res, h2⟩ := res
      cases res <;> simp at hs
      subst hs
      exact this
    · cases hs
  | pull ctxDone pick r =>
    have := Puller.Pull_closed ctxDone pick (st.h.pullers r)
    simp only [State.step] at hs
    split at hs
    · generalize (st.h.pullers r).Pull ctxDone pick = res at this hs
      obtain ⟨res, p2⟩ := res
      cases res <;> simp at hs
      subst hs
      simp only at this
      exact Heap.update_puller_later _ _ _ (fun hc => by rw [this]; exact hc)
    · cases hs
  | pullerClose r =>
    simp only [State.step] at hs
    split at hs
    · split at hs
      · next p' hc =>
        cases hs
        exact Heap.update_puller_later _ _ _ (fun _ => Puller.Close_closed hc)
      · cases hs
    · cases hs
  | pusherClose r =>
    simp only [State.step] at hs
    split at hs
    · cases hs
      exact Heap.PusherClose_later st.h (some r)
    · cases hs
  | run id timerFired sel pick =>
    simp only [State.step] at hs
    split at hs
    · cases hs
    · split at hs
      · cases hs
      · split at hs
        · cases hs
        · next hr =>
          cases hs
          exact cacheEntry.runIter_later hr
  | reap id =>
    simp only [State.step] at hs
    split at hs
    · cases hs
    · split at hs
      · cases hs
        exact Heap.Later.refl _
      · cases hs

theorem State.exec_later : ∀ (evs : List Event) (st st' : State),
    st.exec evs = some st' → Heap.Later st.h st'.h := by
  intro evs
  induction evs with
  | nil => intro st st' hs; cases hs; exact Heap.Later.refl _
  | cons ev evs ih =>
    intro st st' hs
    unfold State.exec at hs
    cases h1 : st.step ev with
    | none => rw [h1] at hs; cases hs
    | some st1 =>
      rw [h1] at hs
      exact (State.step_later h1).trans (ih st1 st' hs)

theorem State.exec_append (evs1 evs2 : List Event) (st : State) :
    st.exec (evs1 ++ evs2) = (st.exec evs1).bind (fun st1 => st1.exec evs2) := by
  induction evs1 generalizing st with
  | nil => rfl
  | cons ev evs ih =>
    simp only [List.cons_append, State.exec]
    cases st.step ev with
    | none => rfl
    | some st1 => exact ih st1

/-! ## Dispatch on a room whose attached queues are distinct -/

theorem accepts_open_room {pick : Nat → Nat} {msg : Message} {h : Heap} {r : Nat}
    (hs : (h.pullers r).closedCh = false) (hlt : (h.pullers r).ch.length < (h.pullers r).cap) :
    accepts pick msg h r = true ∧
    afterTryPush pick msg h r = { h.pullers r with ch := (h.pullers r).ch ++ [msg] } := by
  simp [accepts, afterTryPush, Puller.tryPush_open_room (pick r) msg hs hlt]

theorem accepts_open_full {pick : Nat → Nat} {msg : Message} {h : Heap} {r : Nat}
    (hc : (h.pullers r).closed = false) (hs : (h.pullers r).closedCh = false)
    (hfull : ¬ (h.pullers r).ch.length < (h.pullers r).cap) :
    accepts pick msg h r = false ∧
    afterTryPush pick msg h r =
      { ch := [], cap := (h.pullers r).cap, closed := true, closedCh := true } := by
  simp [accepts, afterTryPush, Puller.tryPush_open_full (pick r) msg hc hs hfull]

/-- The method `dispatch` on a room whose attached queues are distinct: the
replay table gets the message, every attached queue gets one `tryPush`, and
the queues for which it returned true stay attached, in order. -/
theorem cacheEntry.dispatch_nodup (pick : Nat → Nat) (e : cacheEntry) (msg : Message) (h : Heap)
    (hnd : e.pullers.Nodup) :
    ∃ h', e.dispatch pick msg h = .ok ({ e with
        lastMessages := goMapSet e.lastMessages msg.Content msg,
        pullers := e.pullers.filter (accepts pick msg h) }, h') ∧
      (∀ r, r ∈ e.pullers → h'.pullers r = afterTryPush pick msg h r) ∧
      (∀ r, r ∉ e.pullers → h'.pullers r = h.pullers r) ∧
      h'.pushers = h.pushers ∧ h'.chans = h.chans ∧ h'.nPullers = h.nPullers ∧
      h'.nPushers = h.nPushers ∧ h'.nChans = h.nChans := by
  obtain ⟨h', hl, hin⟩ := dispatchLoop_nodup pick msg e.pullers h hnd
  obtain ⟨pp2, h2, hl2, h1, h2', h3, h4, h5, hout, _, _⟩ := dispatchLoop_ok pick msg e.pullers h
  rw [hl] at hl2
  cases hl2
  exact ⟨h', by simp [cacheEntry.dispatch, hl], hin, hout, h1, h2', h3, h4, h5⟩

theorem dispatchSeq_append (ds1 ds2 : List ((Nat → Nat) × Message)) (e : cacheEntry) (h : Heap) :
    dispatchSeq (ds1 ++ ds2) e h =
      match dispatchSeq ds1 e h with
      | .error err => .error err
      | .ok (e', h') => dispatchSeq ds2 e' h' := by
  induction ds1 generalizing e h with
  | nil => rfl
  | cons d ds ih =>
    obtain ⟨pick, msg⟩ := d
    simp only [List.cons_append, dispatchSeq]
    cases e.dispatch pick msg h with
    | error err => rfl
    | ok res => exact ih res.1 res.2

/-- While an open attached queue has room, a run of dispatches leaves it
attached and open, with the messages appended in order. -/
theorem dispatchSeq_open_room (r Q : Nat) :
    ∀ (ds : List ((Nat → Nat) × Message)) (e : cacheEntry) (h : Heap) (buf : List Message),
    r ∈ e.pullers → e.pullers.Nodup →
    h.pullers r = { ch := buf, cap := Q, closed := false, closedCh := false } →
    buf.length + ds.length ≤ Q →
    ∃ e' h', dispatchSeq ds e h = .ok (e', h') ∧ r ∈ e'.pullers ∧ e'.pullers.Nodup ∧
      h'.pullers r =
        { ch := buf ++ ds.map Prod.snd, cap := Q, closed := false, closedCh := false } ∧
      h'.nPullers = h.nPullers := by
  intro ds
  induction ds with
  | nil =>
    intro e h buf hr hnd hp _
    exact ⟨e, h, rfl, hr, hnd, by simpa using hp, rfl⟩
  | cons d ds ih =>
    intro e h buf hr hnd hp hlen
    obtain ⟨pick, msg⟩ := d
    obtain ⟨h1, hd, hin, _, _, _, hn, _, _⟩ := cacheEntry.dispatch_nodup pick e msg h hnd
    have hs : (h.pullers r).closedCh = false := by rw [hp]
    have hlt : (h.pullers r).ch.length < (h.pullers r).cap := by
      rw [hp]
      simp only [List.length_cons] at hlen
      show buf.length < Q
      omega
    obtain ⟨hacc, hafter⟩ := @accepts_open_room pick msg h r hs hlt
    have hr1 : r ∈ e.pullers.filter (accepts pick msg h) :=
      List.mem_filter.mpr ⟨hr, hacc⟩
    have hp1 : h1.pullers r =
        { ch := buf ++ [msg], cap := Q, closed := false, closedCh := false } := by
      rw [hin r hr, hafter, hp]
    obtain ⟨e', h', hseq, hr', hnd', hp', hn'⟩ :=
      ih { e with lastMessages := goMapSet e.lastMessages msg.Content msg,
                  pullers := e.pullers.filter (accepts pick msg h) } h1 (buf ++ [msg])
        hr1 (hnd.filter _) hp1 (by
          simp only [List.length_append, List.length_cons, List.length_nil] at hlen ⊢
          omega)
    refine ⟨e', h', by simp [dispatchSeq, hd, hseq], hr', hnd', ?_, by rw [hn', hn]⟩
    rw [hp']
    simp

/-- A dispatch to an open attached queue that is full closes the queue,
empties it and detaches it. -/
theorem cacheEntry.dispatch_open_full (pick : Nat → Nat) (e : cacheEntry) (msg : Message)
    (h : Heap) (r : Nat) (buf : List Message) (Q : Nat)
    (hr : r ∈ e.pullers) (hnd : e.pullers.Nodup)
    (hp : h.pullers r = { ch := buf, cap := Q, closed := false, closedCh := false })
    (hfull : Q ≤ buf.length) :
    ∃ e' h', e.dispatch pick msg h = .ok (e', h') ∧ r ∉ e'.pullers ∧
      h'.pullers r = { ch := [], cap := Q, closed := true, closedCh := true } ∧
      h'.nPullers = h.nPullers := by
  obtain ⟨h1, hd, hin, _, _, _, hn, _, _⟩ := cacheEntry.dispatch_nodup pick e msg h hnd
  have hc : (h.pullers r).closed = false := by rw [hp]
  have hs : (h.pullers r).closedCh = false := by rw [hp]
  have hnl : ¬ (h.pullers r).ch.length < (h.pullers r).cap := by
    rw [hp]
    show ¬ buf.length < Q
    omega
  obtain ⟨hacc, hafter⟩ := @accepts_open_full pick msg h r hc hs hnl
  refine ⟨_, h1, hd, ?_, ?_, hn⟩
  · intro hmem
    have := (List.mem_filter.mp hmem).2
    rw [hacc] at this
    cases this
  · rw [hin r hr, hafter, hp]

theorem Puller.Pull_of_closed (ctxDone : Bool) (pick : Nat) {p : Puller}
    (hc : p.closed = true) : p.Pull ctxDone pick = (.err .connectionClosed, p) := by
  simp [Puller.Pull, hc]

/-! ## The replay table -/

theorem lastWith_snoc (c : String) (msgs : List Message) (x : Message) :
    lastWith c (msgs ++ [x]) = if x.Content = c then some x else lastWith c msgs := by
  unfold lastWith
  rw [List.reverse_append]
  simp only [List.reverse_cons, List.reverse_nil, List.nil_append, List.singleton_append,
    List.find?_cons]
  by_cases hx : x.Content = c <;> simp [hx]

theorem goMapGet_set {β : Type} (m : List (String × β)) (k k' : String) (v : β) :
    goMapGet (goMapSet m k v) k' = if k = k' then some v else goMapGet m k' := by
  induction m with
  | nil => simp [goMapSet, goMapGet]
  | cons kv rest ih =>
    obtain ⟨k0, v0⟩ := kv
    by_cases h0 : k0 = k
    · subst h0
      by_cases h1 : k0 = k' <;> simp [goMapSet, goMapGet, h1]
    · by_cases h1 : k0 = k'
      · subst h1
        have h2 : ¬ k = k0 := fun h => h0 h.symm
        simp [goMapSet, goMapGet, h0, h2]
      · simp [goMapSet, goMapGet, h0, h1, ih]

theorem goMapSet_keys {β : Type} (m : List (String × β)) (k : String) (v : β) (k' : String) :
    k' ∈ (goMapSet m k v).map Prod.fst ↔ k' = k ∨ k' ∈ m.map Prod.fst := by
  induction m with
  | nil => simp [goMapSet]
  | cons kv rest ih =>
    obtain ⟨k0, v0⟩ := kv
    by_cases h0 : k0 = k
    · subst h0
      simp [goMapSet]
    · simp only [goMapSet, h0, if_false, List.map_cons, List.mem_cons, ih]
      tauto

theorem goMapSet_nodup {β : Type} (m : List (String × β)) (k : String) (v : β)
    (hnd : (m.map Prod.fst).Nodup) : ((goMapSet m k v).map Prod.fst).Nodup := by
  induction m with
  | nil => simp [goMapSet]
  | cons kv rest ih =>
    obtain ⟨k0, v0⟩ := kv
    simp only [List.map_cons, List.nodup_cons] at hnd
    by_cases h0 : k0 = k
    · subst h0
      simpa [goMapSet] using hnd
    · simp only [goMapSet, h0, if_false, List.map_cons, List.nodup_cons]
      refine ⟨?_, ih hnd.2⟩
      intro hmem
      rcases (goMapSet_keys rest k v k0).mp hmem with h1 | h1
      · exact h0 h1
      · exact hnd.1 h1

theorem goMapSet_mem {β : Type} (m : List (String × β)) (k : String) (v : β)
    (kv : String × β) (hmem : kv ∈ goMapSet m k v) : kv = (k, v) ∨ kv ∈ m := by
  induction m with
  | nil => simpa [goMapSet] using hmem
  | cons kv0 rest ih =>
    obtain ⟨k0, v0⟩ := kv0
    by_cases h0 : k0 = k
    · simp only [goMapSet, h0, if_true, List.mem_cons] at hmem
      rcases hmem with h1 | h1
      · exact Or.inl h1
      · exact Or.inr (List.mem_cons_of_mem _ h1)
    · simp only [goMapSet, h0, if_false, List.mem_cons] at hmem
      rcases hmem with h1 | h1
      · exact Or.inr (h1 ▸ List.mem_cons_self _ _)
      · rcases ih h1 with h2 | h2
        · exact Or.inl h2
        · exact Or.inr (List.mem_cons_of_mem _ h2)

theorem goMapGet_eq_none {β : Type} (m : List (String × β)) (k : String)
    (hk : k ∉ m.map Prod.fst) : goMapGet m k = none := by
  induction m with
  | nil => rfl
  | cons kv rest ih =>
    obtain ⟨k0, v0⟩ := kv
    simp only [List.map_cons, List.mem_cons, not_or] at hk
    have h0 : ¬ k0 = k := fun h => hk.1 h.symm
    simp [goMapGet, h0, ih hk.2]

theorem goMapGet_isSome {β : Type} (m : List (String × β)) (k : String) :
    (goMapGet m k).isSome = true ↔ k ∈ m.map Prod.fst := by
  induction m with
  | nil => simp [goMapGet]
  | cons kv rest ih =>
    obtain ⟨k0, v0⟩ := kv
    by_cases h0 : k0 = k
    · simp [goMapGet, h0]
    · have h1 : ¬ k = k0 := fun h => h0 h.symm
      simp [goMapGet, h0, h1, ih]

/-- A table with distinct keys in which every message is filed under its own
category holds, for each category, just the message the lookup returns. -/
theorem goMapValues_filter (m : List (String × Message)) (c : String)
    (hnd : (m.map Prod.fst).Nodup) (hkey : ∀ kv, kv ∈ m → kv.2.Content = kv.1) :
    (goMapValues m).filter (fun x => decide (x.Content = c)) = (goMapGet m c).toList := by
  induction m with
  | nil => rfl
  | cons kv rest ih =>
    obtain ⟨k0, v0⟩ := kv
    simp only [List.map_cons, List.nodup_cons] at hnd
    have hv0 : v0.Content = k0 := hkey (k0, v0) (List.mem_cons_self _ _)
    have hrest : ∀ kv, kv ∈ rest → kv.2.Content = kv.1 :=
      fun kv hkv => hkey kv (List.mem_cons_of_mem _ hkv)
    by_cases h0 : k0 = c
    · subst h0
      have hnone : goMapGet rest k0 = none := goMapGet_eq_none rest k0 hnd.1
      have := ih hnd.2 hrest
      rw [hnone] at this
      simp only [goMapValues] at this
      simp [goMapValues, goMapGet, hv0, this]
    · have := ih hnd.2 hrest
      simp only [goMapValues] at this
      have hv : ¬ v0.Content = c := by rw [hv0]; exact h0
      simp [goMapValues, goMapGet, h0, hv, this]

theorem fileAll_snoc (m : List (String × Message)) (msgs : List Message) (x : Message) :
    fileAll m (msgs ++ [x]) = goMapSet (fileAll m msgs) x.Content x := by
  simp [fileAll, List.foldl_append]

/-- What the replay table of a new room holds after the messages `msgs`. -/
theorem fileAll_spec (msgs : List Message) :
    ((fileAll [] msgs).map Prod.fst).Nodup ∧
    (∀ kv, kv ∈ fileAll [] msgs → kv.2.Content = kv.1) ∧
    (∀ c, goMapGet (fileAll [] msgs) c = lastWith c msgs) := by
  induction msgs using List.reverseRecOn with
  | nil => exact ⟨List.nodup_nil, fun _ h => absurd h (List.not_mem_nil _), fun _ => rfl⟩
  | append_singleton msgs x ih =>
    obtain ⟨h1, h2, h3⟩ := ih
    rw [fileAll_snoc]
    refine ⟨goMapSet_nodup _ _ _ h1, ?_, ?_⟩
    · intro kv hkv
      rcases goMapSet_mem _ _ _ kv hkv with h | h
      · subst h; rfl
      · exact h2 kv h
    · intro c
      rw [goMapGet_set, lastWith_snoc, h3]

theorem dispatchSeq_ok : ∀ (ds : List ((Nat → Nat) × Message)) (e : cacheEntry) (h : Heap),
    ∃ e' h', dispatchSeq ds e h = .ok (e', h') ∧
      e'.lastMessages = fileAll e.lastMessages (ds.map Prod.snd) ∧
      e'.id = e.id ∧ e'.auth = e.auth ∧ e'.closed = e.closed ∧ e'.pusher = e.pusher ∧
      e'.pusherCh = e.pusherCh ∧ h'.nPullers = h.nPullers := by
  intro ds
  induction ds with
  | nil => intro e h; exact ⟨e, h, rfl, rfl, rfl, rfl, rfl, rfl, rfl, rfl⟩
  | cons d ds ih =>
    intro e h
    obtain ⟨pick, msg⟩ := d
    obtain ⟨pp, h1, hl, hd⟩ := cacheEntry.dispatch_ok pick e msg h
    obtain ⟨_, _, hl2, _, _, hn, _⟩ := dispatchLoop_ok pick msg e.pullers h
    rw [hl] at hl2
    cases hl2
    obtain ⟨e', h', hseq, hm, h2, h3, h4, h5, h6, h7⟩ := ih
      { e with lastMessages := goMapSet e.lastMessages msg.Content msg, pullers := pp } h1
    exact ⟨e', h', by simp [dispatchSeq, hd, hseq], by simpa [fileAll] using hm,
      h2, h3, h4, h5, h6, by rw [h7, hn]⟩

/-! ## Invariants of the reachable states -/

theorem goMapGet_mem {β : Type} (m : List (String × β)) (k : String) (v : β)
    (hg : goMapGet m k = some v) : (k, v) ∈ m := by
  induction m with
  | nil => simp [goMapGet] at hg
  | cons kv rest ih =>
    obtain ⟨k0, v0⟩ := kv
    by_cases h0 : k0 = k
    · simp only [goMapGet, h0, if_true, Option.some.injEq] at hg
      rw [h0, hg]
      exact List.mem_cons_self _ _
    · simp only [goMapGet, h0, if_false] at hg
      exact List.mem_cons_of_mem _ (ih hg)

theorem goMapDelete_mem {β : Type} (m : List (String × β)) (k : String) (kv : String × β)
    (hmem : kv ∈ goMapDelete m k) : kv ∈ m := by
  induction m with
  | nil => simp [goMapDelete] at hmem
  | cons kv0 rest ih =>
    obtain ⟨k0, v0⟩ := kv0
    by_cases h0 : k0 = k
    · simp only [goMapDelete, h0, if_true] at hmem
      exact List.mem_cons_of_mem _ (ih hmem)
    · simp only [goMapDelete, h0, if_false, List.mem_cons] at hmem
      rcases hmem with h1 | h1
      · exact h1 ▸ List.mem_cons_self _ _
      · exact List.mem_cons_of_mem _ (ih h1)

theorem Puller.Close_flags {p p' : Puller} (h : p.Close = .ok p') (hf : p.FlagsAgree) :
    p'.FlagsAgree := by
  unfold Puller.Close at h
  split at h
  · cases h; exact hf
  · split at h
    · cases h
    · cases h; rfl

theorem Puller.tryPush_flags {pick : Nat} {p p' : Puller} {msg : Message} {b : Bool}
    (h : p.tryPush pick msg = .ok (b, p')) (hf : p.FlagsAgree) : p'.FlagsAgree := by
  rcases Puller.tryPush_cases pick p msg with ⟨h1, _⟩ | ⟨h1, _⟩ | ⟨q, h1, h2, _⟩
  · rw [h1] at h; cases h; exact hf
  · rw [h1] at h; cases h; exact hf
  · rw [h1] at h; cases h; exact Puller.Close_flags h2 hf

theorem Puller.Pull_flags (ctxDone : Bool) (pick : Nat) (p : Puller) (hf : p.FlagsAgree) :
    (p.Pull ctxDone pick).2.FlagsAgree := by
  unfold Puller.Pull
  split
  · exact hf
  · split <;> exact hf

theorem dispatchLoop_flags (pick : Nat → Nat) (msg : Message) :
    ∀ (rs pp : List Nat) (h h' : Heap), dispatchLoop pick msg rs h = .ok (pp, h') →
      (∀ r, (h.pullers r).FlagsAgree) → ∀ r, (h'.pullers r).FlagsAgree := by
  intro rs
  induction rs with
  | nil => intro pp h h' hl hf; cases hl; exact hf
  | cons r rs ih =>
    intro pp h h' hl hf
    have htp := tryPush_eq_accepts pick msg h r
    simp only [dispatchLoop, htp] at hl
    split at hl
    · cases hl
    · next pp2 h2 hl2 =>
      cases hl
      refine ih _ _ _ hl2 ?_
      intro r'
      by_cases heq : r' = r
      · subst heq
        simp only [Function.update_same]
        exact Puller.tryPush_flags htp (hf r')
      · simpa [Function.update_noteq heq] using hf r'

theorem closeLoop_flags : ∀ (rs : List Nat) (h h' : Heap), closeLoop rs h = .ok h' →
    (∀ r, (h.pullers r).FlagsAgree) → ∀ r, (h'.pullers r).FlagsAgree := by
  intro rs
  induction rs with
  | nil => intro h h' hl hf; cases hl; exact hf
  | cons r rs ih =>
    intro h h' hl hf
    unfold closeLoop at hl
    cases hc : (h.pullers r).Close with
    | error err => rw [hc] at hl; cases hl
    | ok p' =>
      rw [hc] at hl
      refine ih _ h' hl ?_
      intro r'
      by_cases heq : r' = r
      · subst heq
        simp only [Function.update_same]
        exact Puller.Close_flags hc (hf r')
      · simpa [Function.update_noteq heq] using hf r'

/-- What `dispatch` leaves unchanged or only shrinks. -/
theorem cacheEntry.dispatch_spec {pick : Nat → Nat} {e e' : cacheEntry} {msg : Message}
    {h h' : Heap} (hd : e.dispatch pick msg h = .ok (e', h')) :
    e'.pullers.Sublist e.pullers ∧ e'.pusher = e.pusher ∧ e'.pusherCh = e.pusherCh ∧
    h'.nPullers = h.nPullers ∧ h'.nPushers = h.nPushers ∧ h'.nChans = h.nChans ∧
    ((∀ r, (h.pullers r).FlagsAgree) → ∀ r, (h'.pullers r).FlagsAgree) := by
  obtain ⟨pp, h3, hl, hd2⟩ := cacheEntry.dispatch_ok pick e msg h
  rw [hd] at hd2
  cases hd2
  obtain ⟨pp2, h4, hl2, _, _, hn1, hn2, hn3, _, _, hsub⟩ := dispatchLoop_ok pick msg e.pullers h
  rw [hl] at hl2
  cases hl2
  exact ⟨hsub, rfl, rfl, hn1, hn2, hn3, fun hf => dispatchLoop_flags pick msg _ _ _ _ hl hf⟩

/-- What a turn of `run` leaves unchanged or only shrinks. -/
theorem cacheEntry.runIter_spec {timerFired : Bool} {sel : Nat} {pick : Nat → Nat}
    {e e' : cacheEntry} {h h' : Heap} {status : RunStatus}
    (hr : e.runIter timerFired sel pick h = .ok (status, e', h')) :
    e'.pullers.Sublist e.pullers ∧ e'.pusher = e.pusher ∧ e'.pusherCh = e.pusherCh ∧
    h'.nPullers = h.nPullers ∧ h'.nPushers = h.nPushers ∧ h'.nChans = h.nChans ∧
    ((∀ r, (h.pullers r).FlagsAgree) → ∀ r, (h'.pullers r).FlagsAgree) := by
  unfold cacheEntry.runIter at hr
  split at hr
  · next msg rest _ =>
    dsimp only at hr
    split at hr
    · cases hr
    · next e2 h2 hd =>
      cases hr
      have hsp := cacheEntry.dispatch_spec hd
      exact hsp
  · split at hr
    · cases hr
    · next e2 h2 hc =>
      cases hr
      unfold cacheEntry.Close at hc
      cases hl : closeLoop e.pullers (h.PusherClose e.pusher) with
      | error err => rw [hl] at hc; cases hc
      | ok h3 =>
        rw [hl] at hc
        cases hc
        obtain ⟨_, _, hn1, hn2, hn3, _, _, _⟩ := closeLoop_spec _ _ _ hl
        have hp : ∀ (o : Option Nat), (h.PusherClose o).pullers = h.pullers ∧
            (h.PusherClose o).nPullers = h.nPullers ∧ (h.PusherClose o).nPushers = h.nPushers ∧
            (h.PusherClose o).nChans = h.nChans := by
          intro o; cases o <;> exact ⟨rfl, rfl, rfl, rfl⟩
        obtain ⟨hp1, hp2, hp3, hp4⟩ := hp e.pusher
        refine ⟨List.Sublist.refl _, rfl, rfl, by rw [hn1, hp2], by rw [hn2, hp3],
          by rw [hn3, hp4], ?_⟩
        intro hf
        exact closeLoop_flags _ _ _ hl (fun r => by rw [hp1]; exact hf r)
  · cases hr
    exact ⟨List.Sublist.refl _, rfl, rfl, rfl, rfl, rfl, fun hf => hf⟩

/-- What `Pull` does on an open queue: it takes the oldest message, or
returns the context's error, or stays blocked. -/
theorem Puller.Pull_open_cases (ctxDone : Bool) (pick : Nat) (p : Puller)
    (hc : p.closed = false) (hs : p.closedCh = false) :
    (∃ m rest, p.ch = m :: rest ∧ p.Pull ctxDone pick = (.msg m, { p with ch := rest })) ∨
    p.Pull ctxDone pick = (.err .ctxErr, p) ∨ p.Pull ctxDone pick = (.blocked, p) := by
  unfold Puller.Pull
  simp only [hc, Bool.false_eq_true, if_false]
  cases hsel : selectReady pick (p.pullReady ctxDone) with
  | none => right; right; rfl
  | some c =>
    have hmem := selectReady_mem hsel
    cases c with
    | recv m rest =>
      left
      refine ⟨m, rest, ?_, rfl⟩
      cases hch : p.ch with
      | nil => simp [Puller.pullReady, hch, hs] at hmem
      | cons m' rest' =>
        have hrec : PullCase.recv m rest = PullCase.recv m' rest' := by
          simp only [Puller.pullReady, hch, hs] at hmem
          simpa using hmem
        cases hrec
        rfl
    | recvClosedCh =>
      exfalso
      simp only [Puller.pullReady, hs] at hmem
      cases hch : p.ch <;> simp [hch] at hmem
    | ctxDone => right; left; rfl

theorem cacheEntry.NewPuller_flags (queueSize : Nat) (e : cacheEntry) (h : Heap)
    (hf : ∀ r, (h.pullers r).FlagsAgree) :
    ∀ r, ((e.NewPuller queueSize h).2.2.pullers r).FlagsAgree := by
  unfold cacheEntry.NewPuller
  split
  · exact hf
  · split
    · exact hf
    · intro r
      by_cases heq : r = h.nPullers
      · subst heq; simp [Puller.FlagsAgree]
      · simpa [Function.update_noteq heq] using hf r

/-- A sequence of room actions does not panic when the closed marks of the
queues agree. -/
theorem roomTrace_ok (q : Nat) : ∀ (evs : List RoomEvent) (e : cacheEntry) (h : Heap),
    (∀ r, (h.pullers r).FlagsAgree) → ∃ got e' h', roomTrace q evs e h = .ok (got, e', h') := by
  intro evs
  induction evs with
  | nil => intro e h _; exact ⟨[], e, h, rfl⟩
  | cons ev evs ih =>
    intro e h hf
    cases ev with
    | dispatch pick msg =>
      obtain ⟨pp, h1, _, hd⟩ := cacheEntry.dispatch_ok pick e msg h
      obtain ⟨got, e', h', htr⟩ := ih
        { e with lastMessages := goMapSet e.lastMessages msg.Content msg, pullers := pp } h1
        ((cacheEntry.dispatch_spec hd).2.2.2.2.2.2 hf)
      exact ⟨got, e', h', by simp [roomTrace, hd, htr]⟩
    | pull ctxDone pick r =>
      obtain ⟨got, e', h', htr⟩ := ih e
        { h with pullers := Function.update h.pullers r ((h.pullers r).Pull ctxDone pick).2 }
        (by
          intro r'
          by_cases heq : r' = r
          · subst heq; simpa using Puller.Pull_flags ctxDone pick _ (hf r')
          · simpa [Function.update_noteq heq] using hf r')
      exact ⟨received q r ((h.pullers r).Pull ctxDone pick).1 ++ got, e', h',
        by simp [roomTrace, htr]⟩
    | pullerClose r =>
      obtain ⟨p', hp'⟩ : ∃ p', (h.pullers r).Close = .ok p' := by
        by_cases hc : (h.pullers r).closed = true
        · exact ⟨_, Puller.Close_of_closed hc⟩
        · have hc' : (h.pullers r).closed = false := by simpa using hc
          have hs : (h.pullers r).closedCh = false := by rw [hf r]; exact hc'
          exact ⟨_, Puller.Close_of_open hc' hs⟩
      obtain ⟨got, e', h', htr⟩ := ih e { h with pullers := Function.update h.pullers r p' }
        (by
          intro r'
          by_cases heq : r' = r
          · subst heq; simpa using Puller.Close_flags hp' (hf r')
          · simpa [Function.update_noteq heq] using hf r')
      exact ⟨got, e', h', by simp [roomTrace, hp', htr]⟩
    | newPuller queueSize =>
      obtain ⟨got, e', h', htr⟩ := ih (e.NewPuller queueSize h).2.1 (e.NewPuller queueSize h).2.2
        (cacheEntry.NewPuller_flags queueSize e h hf)
      exact ⟨got, e', h', by simp [roomTrace, htr]⟩

theorem roomTrace_later (q : Nat) : ∀ (evs : List RoomEvent) (e e' : cacheEntry) (h h' : Heap)
    (got : List Message), roomTrace q evs e h = .ok (got, e', h') → Heap.Later h h' := by
  intro evs
  induction evs with
  | nil => intro e e' h h' got htr; cases htr; exact Heap.Later.refl _
  | cons ev evs ih =>
    intro e e' h h' got htr
    cases ev with
    | dispatch pick msg =>
      simp only [roomTrace] at htr
      split at htr
      · cases htr
      · next e1 h1 hd => exact (cacheEntry.dispatch_later hd).trans (ih _ _ _ _ _ htr)
    | pull ctxDone pick r =>
      simp only [roomTrace] at htr
      split at htr
      · cases htr
      · next got1 e1 h1 htr1 =>
        cases htr
        refine (Heap.update_puller_later h r _ ?_).trans (ih _ _ _ _ _ htr1)
        intro hc
        rw [Puller.Pull_closed]; exact hc
    | pullerClose r =>
      simp only [roomTrace] at htr
      split at htr
      · cases htr
      · next p' hc =>
        exact (Heap.update_puller_later h r p' (fun _ => Puller.Close_closed hc)).trans
          (ih _ _ _ _ _ htr)
    | newPuller queueSize =>
      simp only [roomTrace] at htr
      exact (cacheEntry.NewPuller_later queueSize e h).trans (ih _ _ _ _ _ htr)

theorem roomTrace_flags (q : Nat) : ∀ (evs : List RoomEvent) (e e' : cacheEntry) (h h' : Heap)
    (got : List Message), roomTrace q evs e h = .ok (got, e', h') →
    (∀ r, (h.pullers r).FlagsAgree) → ∀ r, (h'.pullers r).FlagsAgree := by
  intro evs
  induction evs with
  | nil => intro e e' h h' got ht hf; cases ht; exact hf
  | cons ev evs ih =>
    intro e e' h h' got ht hf
    cases ev with
    | dispatch pick msg =>
      simp only [roomTrace] at ht
      split at ht
      · cases ht
      · next e1 h1 hd =>
        exact ih _ _ _ _ _ ht ((cacheEntry.dispatch_spec hd).2.2.2.2.2.2 hf)
    | pull ctxDone pick r =>
      simp only [roomTrace] at ht
      split at ht
      · cases ht
      · next got1 e1 h1 ht1 =>
        cases ht
        refine ih _ _ _ _ _ ht1 ?_
        intro r'
        by_cases heq : r' = r
        · subst heq; simpa using Puller.Pull_flags ctxDone pick _ (hf r')
        · simpa [Function.update_noteq heq] using hf r'
    | pullerClose r =>
      simp only [roomTrace] at ht
      split at ht
      · cases ht
      · next p' hc =>
        refine ih _ _ _ _ _ ht ?_
        intro r'
        by_cases heq : r' = r
        · subst heq; simpa using Puller.Close_flags hc (hf r')
        · simpa [Function.update_noteq heq] using hf r'
    | newPuller queueSize =>
      simp only [roomTrace] at ht
      exact ih _ _ _ _ _ ht (cacheEntry.NewPuller_flags queueSize e h hf)

/-- The invariant of delivery: while the attached queue `q` stays open, what
was received from it followed by what it holds is what it held followed by
what was dispatched. -/
theorem roomTrace_fifo (q Q : Nat) : ∀ (evs : List RoomEvent) (e e' : cacheEntry) (h h' : Heap)
    (buf got : List Message),
    q ∈ e.pullers → e.pullers.Nodup → (∀ r, r ∈ e.pullers → r < h.nPullers) →
    h.pullers q = { ch := buf, cap := Q, closed := false, closedCh := false } →
    roomTrace q evs e h = .ok (got, e', h') → (h'.pullers q).closed = false →
    q ∈ e'.pullers ∧ got ++ (h'.pullers q).ch = buf ++ dispatched evs := by
  intro evs
  induction evs with
  | nil =>
    intro e e' h h' buf got hq _ _ hp htr _
    cases htr
    exact ⟨hq, by rw [hp]; simp [dispatched]⟩
  | cons ev evs ih =>
    intro e e' h h' buf got hq hnd hlt hp htr hopen
    have hqlt : q < h.nPullers := hlt q hq
    cases ev with
    | dispatch pick msg =>
      simp only [roomTrace] at htr
      obtain ⟨h1, hd, hin, _, _, _, hn, _, _⟩ := cacheEntry.dispatch_nodup pick e msg h hnd
      rw [hd] at htr
      simp only at htr
      have hs : (h.pullers q).closedCh = false := by rw [hp]
      have hc : (h.pullers q).closed = false := by rw [hp]
      by_cases hroom : buf.length < Q
      · have hlt' : (h.pullers q).ch.length < (h.pullers q).cap := by rw [hp]; exact hroom
        obtain ⟨hacc, hafter⟩ := @accepts_open_room pick msg h q hs hlt'
        have := ih _ e' h1 h' (buf ++ [msg]) got (List.mem_filter.mpr ⟨hq, hacc⟩)
          (hnd.filter _)
          (fun r hr => by rw [hn]; exact hlt r (List.mem_filter.mp hr).1)
          (by rw [hin q hq, hafter, hp]) htr hopen
        exact ⟨this.1, by rw [this.2]; simp [dispatched]⟩
      · exfalso
        have hfull : ¬ (h.pullers q).ch.length < (h.pullers q).cap := by rw [hp]; exact hroom
        obtain ⟨_, hafter⟩ := @accepts_open_full pick msg h q hc hs hfull
        have hlater := roomTrace_later q evs _ e' h1 h' got htr
        have hcl := hlater.pullers q (by rw [hn]; exact hqlt) (by rw [hin q hq, hafter])
        rw [hopen] at hcl
        cases hcl
    | pull ctxDone pick r =>
      simp only [roomTrace] at htr
      split at htr
      · cases htr
      · next got1 e1 h1 htr1 =>
        cases htr
        by_cases heq : r = q
        · subst heq
          rcases Puller.Pull_open_cases ctxDone pick (h.pullers r) (by rw [hp]) (by rw [hp])
            with ⟨m, rest, hch, hpull⟩ | hpull | hpull
          · have hbuf : buf = m :: rest := by rw [hp] at hch; exact hch
            rw [hpull] at htr1 ⊢
            dsimp only at htr1 ⊢
            have key := fun hl hp' => ih e e' _ h' rest got1 hq hnd hl hp' htr1 hopen
            have := key (fun r hr => hlt r hr) (by simp [hp])
            refine ⟨this.1, ?_⟩
            simp only [received, if_true, dispatched]
            rw [hbuf]
            simp [this.2]
          · rw [hpull] at htr1 ⊢
            dsimp only at htr1 ⊢
            have key := fun hl hp' => ih e e' _ h' buf got1 hq hnd hl hp' htr1 hopen
            have := key (fun r hr => hlt r hr) (by simp [hp])
            exact ⟨this.1, by simpa [received, dispatched] using this.2⟩
          · rw [hpull] at htr1 ⊢
            dsimp only at htr1 ⊢
            have key := fun hl hp' => ih e e' _ h' buf got1 hq hnd hl hp' htr1 hopen
            have := key (fun r hr => hlt r hr) (by simp [hp])
            exact ⟨this.1, by simpa [received, dispatched] using this.2⟩
        · have hne : q ≠ r := fun h => heq h.symm
          have key := fun hl hp' => ih e e' _ h' buf got1 hq hnd hl hp' htr1 hopen
          have := key (fun r hr => hlt r hr)
            (by simp only [Function.update_noteq hne]; exact hp)
          refine ⟨this.1, ?_⟩
          have hrec : received q r ((h.pullers r).Pull ctxDone pick).1 = [] := by
            unfold received
            split
            · simp [heq]
            · rfl
          rw [hrec]
          simpa [dispatched] using this.2
    | pullerClose r =>
      simp only [roomTrace] at htr
      split at htr
      · cases htr
      · next p' hc =>
        by_cases heq : r = q
        · subst heq
          exfalso
          have hlater := roomTrace_later r evs _ e' _ h' got htr
          have hcl := hlater.pullers r hqlt (by
            simp only [Function.update_same]; exact Puller.Close_closed hc)
          rw [hopen] at hcl
          cases hcl
        · have hne : q ≠ r := fun h => heq h.symm
          have key := fun hl hp' => ih e e' _ h' buf got hq hnd hl hp' htr hopen
          have := key (fun r hr => hlt r hr)
            (by simp only [Function.update_noteq hne]; exact hp)
          exact ⟨this.1, by simpa [dispatched] using this.2⟩
    | newPuller queueSize =>
      simp only [roomTrace] at htr
      by_cases hcl : e.closed = true
      · have hres : e.NewPuller queueSize h = (.error .connectionClosed, e, h) := by
          simp [cacheEntry.NewPuller, hcl]
        rw [hres] at htr
        have := ih e e' h h' buf got hq hnd hlt hp htr hopen
        exact ⟨this.1, by simpa [dispatched] using this.2⟩
      · have hcl' : e.closed = false := by simpa using hcl
        by_cases hbig : h.maxChanCap < queueSize
        · have hres : e.NewPuller queueSize h = (.error .makechanSizeOutOfRange, e, h) := by
            simp [cacheEntry.NewPuller, hcl', hbig]
          rw [hres] at htr
          have := ih e e' h h' buf got hq hnd hlt hp htr hopen
          exact ⟨this.1, by simpa [dispatched] using this.2⟩
        · have hres : e.NewPuller queueSize h = (.ok h.nPullers,
              { e with pullers := e.pullers ++ [h.nPullers] },
              { h with pullers := Function.update h.pullers h.nPullers
                         { ch := [], cap := queueSize, closed := false, closedCh := false },
                       nPullers := h.nPullers + 1 }) := by
            simp [cacheEntry.NewPuller, hcl', hbig]
          rw [hres] at htr
          dsimp only at htr
          have hne : q ≠ h.nPullers := Nat.ne_of_lt hqlt
          have key := fun hm hn hl hp' => ih _ e' _ h' buf got hm hn hl hp' htr hopen
          have := key (List.mem_append_left _ hq)
            (by
              refine List.Nodup.append hnd (List.nodup_singleton _) ?_
              intro r h1 h2
              rw [List.mem_singleton.mp h2] at h1
              exact Nat.lt_irrefl _ (hlt _ h1))
            (by
              intro r hr
              rcases List.mem_append.mp hr with h1 | h1
              · exact Nat.lt_succ_of_lt (hlt r h1)
              · rw [List.mem_singleton.mp h1]; exact Nat.lt_succ_self _)
            (by simp only [Function.update_noteq hne]; exact hp)
          exact ⟨this.1, by simpa [dispatched] using this.2⟩

/-! ## The channels of the rooms -/

theorem chansOK_set {st : State} (hc : st.ChansOK) (id : String) (e' : cacheEntry)
    (h' : Heap) (hb : ∀ c, (h'.chans c).buf.length ≤ (h'.chans c).cap)
    (hpos : ∀ c, 0 < (st.h.chans c).cap → 0 < (h'.chans c).cap)
    (he : 0 < (h'.chans e'.pusherCh).cap) :
    State.ChansOK { d := { st.d with entries := goMapSet st.d.entries id e' }, h := h' } := by
  refine ⟨hb, ?_⟩
  intro k e hmem
  rcases goMapSet_mem _ _ _ _ hmem with heq | hold
  · cases heq; exact he
  · exact hpos _ (hc.roomCap k e hold)

theorem Heap.PusherClose_chans (h : Heap) (o : Option Nat) :
    (h.PusherClose o).chans = h.chans := by
  cases o <;> rfl

theorem cacheEntry.NewPusher_chans (e : cacheEntry) (h : Heap) :
    (e.NewPusher h).2.2.chans = h.chans ∧ (e.NewPusher h).2.1.pusherCh = e.pusherCh := by
  unfold cacheEntry.NewPusher
  split
  · exact ⟨rfl, rfl⟩
  · exact ⟨Heap.PusherClose_chans h e.pusher, rfl⟩

theorem cacheEntry.NewPuller_chans (q : Nat) (e : cacheEntry) (h : Heap) :
    (e.NewPuller q h).2.2.chans = h.chans ∧ (e.NewPuller q h).2.1.pusherCh = e.pusherCh := by
  unfold cacheEntry.NewPuller
  split
  · exact ⟨rfl, rfl⟩
  · split <;> exact ⟨rfl, rfl⟩

theorem Dispatcher.createEntry_chansOK (id auth : String) (st : State) (hc : st.ChansOK) :
    (Dispatcher.createEntry id auth st).2.ChansOK := by
  unfold Dispatcher.createEntry
  split
  · exact hc
  · rw [newCacheEntry_eq]
    refine chansOK_set hc id _ _ ?_ ?_ ?_
    · intro c
      by_cases heq : c = st.h.nChans
      · subst heq; simp
      · simpa [Function.update_noteq heq] using hc.bounded c
    · intro c hpos
      by_cases heq : c = st.h.nChans
      · subst heq; simp
      · simpa [Function.update_noteq heq] using hpos
    · simp

theorem Dispatcher.NewPusher_chansOK (now : Int) (genAuth id auth : String) (st : State)
    (hc : st.ChansOK) : (Dispatcher.NewPusher now genAuth id auth st).2.ChansOK := by
  unfold Dispatcher.NewPusher
  split
  · split
    · next e hget =>
      split
      · exact hc
      · have he := hc.roomCap id e (goMapGet_mem _ _ _ hget)
        obtain ⟨h1, h2⟩ := cacheEntry.NewPusher_chans e st.h
        have key : State.ChansOK (State.mk
            { st.d with entries := goMapSet st.d.entries id (e.NewPusher st.h).2.1 }
            (e.NewPusher st.h).2.2) :=
          chansOK_set hc id _ _ (fun c => by rw [h1]; exact hc.bounded c)
            (fun c hp => by rw [h1]; exact hp) (by rw [h1, h2]; exact he)
        generalize e.NewPusher st.h = res at key
        obtain ⟨res, e', h'⟩ := res
        exact key
    · exact Dispatcher.createEntry_chansOK _ _ _ hc
  · exact Dispatcher.createEntry_chansOK _ _ _ hc

theorem Dispatcher.attachPuller_chansOK (id : String) (st : State) (hc : st.ChansOK) :
    (Dispatcher.attachPuller id st).2.ChansOK := by
  unfold Dispatcher.attachPuller
  split
  · exact hc
  · next e hget =>
    have he := hc.roomCap id e (goMapGet_mem _ _ _ hget)
    obtain ⟨h1, h2⟩ := cacheEntry.NewPuller_chans st.d.pullerQueue e st.h
    have key : State.ChansOK (State.mk
        { st.d with entries :=
            goMapSet st.d.entries id (e.NewPuller st.d.pullerQueue st.h).2.1 }
        (e.NewPuller st.d.pullerQueue st.h).2.2) :=
      chansOK_set hc id _ _ (fun c => by rw [h1]; exact hc.bounded c)
        (fun c hp => by rw [h1]; exact hp) (by rw [h1, h2]; exact he)
    generalize e.NewPuller st.d.pullerQueue st.h = res at key
    obtain ⟨res, e', h'⟩ := res
    exact key

/-- When the `select` of `run` takes the receive, the message is the oldest
one of the channel of the room. -/
theorem cacheEntry.runReady_recv {timerFired : Bool} {sel : Nat} {e : cacheEntry} {h : Heap}
    {msg : Message} {rest : List Message}
    (hsel : selectReady sel (e.runReady timerFired h) = some (RunCase.recv msg rest)) :
    (h.chans e.pusherCh).buf = msg :: rest := by
  have hmem := selectReady_mem hsel
  unfold cacheEntry.runReady at hmem
  cases hbuf : (h.chans e.pusherCh).buf with
  | nil =>
    rw [hbuf] at hmem
    simp only [List.nil_append] at hmem
    split at hmem <;> simp at hmem
  | cons m' rest' =>
    rw [hbuf] at hmem
    have hrec : RunCase.recv msg rest = RunCase.recv m' rest' := by
      simp only [List.singleton_append, List.mem_cons] at hmem
      rcases hmem with h1 | h1
      · exact h1
      · split at h1 <;> simp at h1
    cases hrec
    rfl

/-- A turn of `run` changes no capacity and lengthens no channel. -/
theorem cacheEntry.runIter_chans {timerFired : Bool} {sel : Nat} {pick : Nat → Nat}
    {e e' : cacheEntry} {h h' : Heap} {status : RunStatus}
    (hr : e.runIter timerFired sel pick h = .ok (status, e', h')) :
    ∀ c, (h'.chans c).cap = (h.chans c).cap ∧
      (h'.chans c).buf.length ≤ (h.chans c).buf.length := by
  unfold cacheEntry.runIter at hr
  split at hr
  · next msg rest hsel =>
    have hbuf := cacheEntry.runReady_recv hsel
    dsimp only at hr
    split at hr
    · cases hr
    · next e2 h2 hd =>
      cases hr
      obtain ⟨pp, h3, hl, hd2⟩ := cacheEntry.dispatch_ok pick e msg _
      rw [hd] at hd2
      cases hd2
      obtain ⟨pp2, h4, hl2, _, hch, _⟩ := dispatchLoop_ok pick msg e.pullers _
      rw [hl] at hl2
      cases hl2
      intro c
      rw [hch]
      by_cases heq : c = e.pusherCh
      · subst heq
        simp [hbuf]
      · simp [Function.update_noteq heq]
  · split at hr
    · cases hr
    · next e2 h2 hc =>
      cases hr
      unfold cacheEntry.Close at hc
      cases hl : closeLoop e.pullers (h.PusherClose e.pusher) with
      | error err => rw [hl] at hc; cases hc
      | ok h3 =>
        rw [hl] at hc
        cases hc
        obtain ⟨_, hch, _⟩ := closeLoop_spec _ _ _ hl
        intro c
        rw [hch, Heap.PusherClose_chans]
        exact ⟨rfl, Nat.le_refl _⟩
  · cases hr
    intro c
    exact ⟨rfl, Nat.le_refl _⟩

/-- Every action keeps the invariant of the channels. -/
theorem State.step_chansOK {st st' : State} {ev : Event} (hs : st.step ev = some st')
    (hc : st.ChansOK) : st'.ChansOK := by
  cases ev with
  | newPusher now genAuth id auth =>
    have := Dispatcher.NewPusher_chansOK now genAuth id auth st hc
    simp only [State.step] at hs
    generalize Dispatcher.NewPusher now genAuth id auth st = res at this hs
    obtain ⟨res, st2⟩ := res
    cases res with
    | error err => simp at hs
    | ok v => simp at hs; subst hs; exact this
  | newPuller id =>
    have := Dispatcher.attachPuller_chansOK id st hc
    simp only [State.step] at hs
    generalize Dispatcher.attachPuller id st = res at this hs
    obtain ⟨res, st2⟩ := res
    cases res with
    | error err => simp at hs
    | ok v => simp at hs; subst hs; exact this
  | push ctxDone r msg =>
    simp only [State.step] at hs
    split at hs
    · have hsend : ∀ c, ((st.h.Push ctxDone r msg).2.chans c).buf.length ≤
            ((st.h.Push ctxDone r msg).2.chans c).cap ∧
          (0 < (st.h.chans c).cap → 0 < ((st.h.Push ctxDone r msg).2.chans c).cap) := by
        intro c
        unfold Heap.Push Pusher.Push Heap.send
        dsimp only
        split
        · exact ⟨hc.bounded c, fun hp => hp⟩
        · split
          · next hlt =>
            by_cases heq : c = (st.h.pushers r).ch
            · subst heq
              simp only [Function.update_same, List.length_append, List.length_cons,
                List.length_nil]
              exact ⟨by omega, fun hp => hp⟩
            · simp only [Function.update_noteq heq]
              exact ⟨hc.bounded c, fun hp => hp⟩
          · exact ⟨hc.bounded c, fun hp => hp⟩
      generalize st.h.Push ctxDone r msg = res at hsend hs
      obtain ⟨res, h2⟩ := res
      cases res <;> simp at hs
      subst hs
      exact ⟨fun c => (hsend c).1, fun k e hmem => (hsend _).2 (hc.roomCap k e hmem)⟩
    · cases hs
  | pull ctxDone pick r =>
    simp only [State.step] at hs
    split at hs
    · split at hs
      · cases hs; exact ⟨hc.bounded, hc.roomCap⟩
      · cases hs
    · cases hs
  | pullerClose r =>
    simp only [State.step] at hs
    split at hs
    · split at hs
      · cases hs; exact ⟨hc.bounded, hc.roomCap⟩
      · cases hs
    · cases hs
  | pusherClose r =>
    simp only [State.step] at hs
    split at hs
    · cases hs
      exact ⟨hc.bounded, hc.roomCap⟩
    · cases hs
  | run id timerFired sel pick =>
    simp only [State.step] at hs
    split at hs
    · cases hs
    · next e hget =>
      split at hs
      · cases hs
      · split at hs
        · cases hs
        · next status e' h' hr =>
          cases hs
          have hch := cacheEntry.runIter_chans hr
          have hpc := (cacheEntry.runIter_spec hr).2.2.1
          refine chansOK_set hc id e' h' ?_ ?_ ?_
          · intro c
            rw [(hch c).1]
            exact Nat.le_trans (hch c).2 (hc.bounded c)
          · intro c hp
            rw [(hch c).1]; exact hp
          · rw [(hch _).1, hpc]
            exact hc.roomCap id e (goMapGet_mem _ _ _ hget)
  | reap id =>
    simp only [State.step] at hs
    split at hs
    · cases hs
    · split at hs
      · cases hs
        exact ⟨hc.bounded, fun k e hmem => hc.roomCap k e (goMapDelete_mem _ _ _ hmem)⟩
      · cases hs

theorem State.exec_chansOK : ∀ (evs : List Event) (st st' : State),
    st.exec evs = some st' → st.ChansOK → st'.ChansOK := by
  intro evs
  induction evs with
  | nil => intro st st' hs hc; cases hs; exact hc
  | cons ev evs ih =>
    intro st st' hs hc
    unfold State.exec at hs
    cases h1 : st.step ev with
    | none => rw [h1] at hs; cases hs
    | some st1 =>
      rw [h1] at hs
      exact ih st1 st' hs (State.step_chansOK h1 hc)

/-- In every reachable state the channels are within their capacity and the
channel of every room has a positive capacity. -/
theorem Reachable.chansOK {st : State} (hr : Reachable st) : st.ChansOK := by
  obtain ⟨expiration, pullerQueue, d, maxChanCap, hpos, evs, hd, hex⟩ := hr
  refine State.exec_chansOK evs _ st hex ⟨fun _ => Nat.le_refl _, ?_⟩
  intro k e hmem
  unfold NewDispatcher at hd
  split at hd
  · cases hd
  · split at hd
    · cases hd
    · cases hd
      exact absurd hmem (List.not_mem_nil _)

/-! ## A channel without a receiver -/

theorem reachable_stRoom : Reachable stRoom := by
  refine ⟨1, 1, exInit.d, _, Heap.empty.maxChanCap_pos, [Event.newPusher 0 "" "room" "secret"], rfl, ?_⟩
  simp [State.exec, State.step, Dispatcher.NewPusher, Dispatcher.createEntry,
    goMapGet, goMapSet, newCacheEntry_eq, stRoom, roomNew, exInit, Heap.empty, Heap.new]

/-- C1, eviction under load: a queue of capacity `Q > 0` that is attached to a
room, open and empty takes the first `Q` messages dispatched to the room (it
stays attached and open, holding them in order) and is closed, emptied and
detached by the next dispatch, which it does not take; from then on, whatever
the program does, every `Pull` on it returns the error "connection closed"
and leaves it as it is. -/
theorem eviction_under_load (Q : Nat) (_hQ : 0 < Q) (e : cacheEntry) (h : Heap) (r : Nat)
    (hr : r ∈ e.pullers) (hnd : e.pullers.Nodup) (halloc : r < h.nPullers)
    (hp : h.pullers r = { ch := [], cap := Q, closed := false, closedCh := false })
    (ds : List ((Nat → Nat) × Message)) (hlen : ds.length = Q + 1) :
    ∃ e1 h1 e2 h2,
      dispatchSeq (ds.take Q) e h = .ok (e1, h1) ∧ r ∈ e1.pullers ∧
      h1.pullers r =
        { ch := (ds.take Q).map Prod.snd, cap := Q, closed := false, closedCh := false } ∧
      dispatchSeq ds e h = .ok (e2, h2) ∧ r ∉ e2.pullers ∧
      h2.pullers r = { ch := [], cap := Q, closed := true, closedCh := true } ∧
      ∀ (d : Dispatcher) (evs : List Event) (st' : State),
        State.exec { d := d, h := h2 } evs = some st' →
        ∀ (ctxDone : Bool) (pick : Nat),
          (st'.h.pullers r).Pull ctxDone pick = (.err .connectionClosed, st'.h.pullers r) := by
  have hlt : (ds.take Q).length = Q := by
    rw [List.length_take, hlen]; omega
  obtain ⟨e1, h1, hseq1, hr1, hnd1, hp1, hn1⟩ :=
    dispatchSeq_open_room r Q (ds.take Q) e h [] hr hnd hp (by simp only [List.length_nil]; omega)
  have hp1' : h1.pullers r =
      { ch := (ds.take Q).map Prod.snd, cap := Q, closed := false, closedCh := false } := by
    simpa using hp1
  obtain ⟨d, hdrop⟩ : ∃ d, ds.drop Q = [d] := by
    have hl : (ds.drop Q).length = 1 := by rw [List.length_drop, hlen]; omega
    match hd : ds.drop Q, hl with
    | [d], _ => exact ⟨d, rfl⟩
  obtain ⟨pick, msg⟩ := d
  obtain ⟨e2, h2, hd2, hr2, hp2, hn2⟩ := cacheEntry.dispatch_open_full pick e1 msg h1 r
    ((ds.take Q).map Prod.snd) Q hr1 hnd1 hp1' (by rw [List.length_map, hlt])
  have hseq2 : dispatchSeq ds e h = .ok (e2, h2) := by
    have hsplit : ds = ds.take Q ++ [(pick, msg)] := by
      rw [← hdrop]; exact (List.take_append_drop Q ds).symm
    have happ := dispatchSeq_append (ds.take Q) [(pick, msg)] e h
    rw [← hsplit, hseq1] at happ
    rw [happ]
    simp [dispatchSeq, hd2]
  refine ⟨e1, h1, e2, h2, hseq1, hr1, hp1', hseq2, hr2, hp2, ?_⟩
  intro d evs st' hex ctxDone pick'
  have hlater := State.exec_later evs _ st' hex
  have hcl : (st'.h.pullers r).closed = true := by
    apply hlater.pullers r
    · show r < h2.nPullers
      rw [hn2, hn1]; exact halloc
    · show (h2.pullers r).closed = true
      rw [hp2]
  exact Puller.Pull_of_closed ctxDone pick' hcl

/-- The queue of capacity 1 of `exRoom` is evicted by the second of two dispatches. -/
theorem eviction_under_load_witness :
    ∃ e2 h2, dispatchSeq [(fun _ => 0, msgPosA), (fun _ => 0, msgHpB)] exRoom exHeap =
        .ok (e2, h2) ∧ 0 ∉ e2.pullers ∧
      h2.pullers 0 = { ch := [], cap := 1, closed := true, closedCh := true } := by
  obtain ⟨_, _, e2, h2, _, _, _, hseq, hr, hp, _⟩ :=
    eviction_under_load 1 (by decide) exRoom exHeap 0 (by simp [exRoom]) (by simp [exRoom])
      (by decide) rfl [(fun _ => 0, msgPosA), (fun _ => 0, msgHpB)] rfl
  exact ⟨e2, h2, hseq, hr, hp⟩

/-- C2, replay correctness: after any sequence of messages is dispatched to a
newly created room, the replay snapshot (`cacheEntry.LastMessages`, which is
what a `Dispatcher.NewPuller` that follows returns on that room, unless
`make` refuses the capacity of the dispatcher and the call panics) has no two
messages of the same category and, for every category `c`, its messages of
category `c` are exactly the last message dispatched with `c` when there is
one, and none otherwise. -/
theorem replay_correctness (id auth : String) (h0 : Heap)
    (ds : List ((Nat → Nat) × Message)) :
    ∃ e' h', dispatchSeq ds (newCacheEntry id auth h0).1 (newCacheEntry id auth h0).2 =
        .ok (e', h') ∧
      (e'.LastMessages.map Message.Content).Nodup ∧
      (∀ c, e'.LastMessages.filter (fun m => decide (m.Content = c)) =
        (lastWith c (ds.map Prod.snd)).toList) ∧
      (∀ m, m ∈ e'.LastMessages ↔ lastWith m.Content (ds.map Prod.snd) = some m) ∧
      (∀ (d : Dispatcher) (key : String), goMapGet d.entries key = some e' →
        (Dispatcher.NewPuller [] key { d := d, h := h' }).1 =
          if d.pullerQueue ≤ h'.maxChanCap then .ok (h'.nPullers, e'.LastMessages)
          else .error .makechanSizeOutOfRange) := by
  obtain ⟨e', h', hseq, hm, _, _, hcl, _, _, _⟩ :=
    dispatchSeq_ok ds (newCacheEntry id auth h0).1 (newCacheEntry id auth h0).2
  have hm0 : e'.lastMessages = fileAll [] (ds.map Prod.snd) := by
    rw [hm, newCacheEntry_eq]
  have hcl0 : e'.closed = false := by
    rw [hcl, newCacheEntry_eq]
  obtain ⟨h1, h2, h3⟩ := fileAll_spec (ds.map Prod.snd)
  have hfilter : ∀ c, e'.LastMessages.filter (fun m => decide (m.Content = c)) =
      (lastWith c (ds.map Prod.snd)).toList := by
    intro c
    unfold cacheEntry.LastMessages
    rw [hm0, goMapValues_filter _ c h1 h2, h3]
  have hcont : e'.LastMessages.map Message.Content = (fileAll [] (ds.map Prod.snd)).map Prod.fst := by
    unfold cacheEntry.LastMessages goMapValues
    rw [hm0, List.map_map]
    apply List.map_congr_left
    intro kv hkv
    exact h2 kv hkv
  refine ⟨e', h', hseq, by rw [hcont]; exact h1, hfilter, ?_, ?_⟩
  · intro m
    have hf := hfilter m.Content
    constructor
    · intro hmem
      have hin : m ∈ e'.LastMessages.filter (fun x => decide (x.Content = m.Content)) :=
        List.mem_filter.mpr ⟨hmem, by simp⟩
      rw [hf] at hin
      cases hl : lastWith m.Content (ds.map Prod.snd) with
      | none => rw [hl] at hin; simp at hin
      | some x => rw [hl] at hin; simp at hin; rw [hin]
    · intro hl
      rw [hl] at hf
      have hin : m ∈ e'.LastMessages.filter (fun x => decide (x.Content = m.Content)) := by
        rw [hf]; simp
      exact (List.mem_filter.mp hin).1
  · intro d key hget
    by_cases hcap : d.pullerQueue ≤ h'.maxChanCap
    · have hnb : ¬ h'.maxChanCap < d.pullerQueue := Nat.not_lt.mpr hcap
      simp [Dispatcher.NewPuller, Dispatcher.attachPuller, State.interleave, hget,
        cacheEntry.NewPuller, hcl0, cacheEntry.LastMessages, hcap, hnb, goMapGet_set]
    · have hbig : h'.maxChanCap < d.pullerQueue := Nat.lt_of_not_le hcap
      simp [Dispatcher.NewPuller, Dispatcher.attachPuller, hget, cacheEntry.NewPuller, hcl0,
        hcap, hbig]

/-- C4, authorization is side-effect free: for a room filed under a non-empty
identifier `I` with the secret `S`, `NewPusher(I, S')` with another secret
returns the error "unauthorized" and the state after the call is the state
before it: the registry mapping, the room (its active handle, attached
queues, replay table and closed flag) and every handle and queue are as they
were, so the active handle is revoked after the call only if it was before. -/
theorem authorization_side_effect_free (now : Int) (genAuth : String) (st : State)
    (I S S' : String) (e : cacheEntry) (hI : I ≠ "")
    (hget : goMapGet st.d.entries I = some e) (hauth : e.auth = S) (hne : S' ≠ S) :
    Dispatcher.NewPusher now genAuth I S' st = (.error .unauthorized, st) ∧
    goMapGet (Dispatcher.NewPusher now genAuth I S' st).2.d.entries I = some e ∧
    (Dispatcher.NewPusher now genAuth I S' st).2.d.entries = st.d.entries ∧
    (∀ H, e.pusher = some H →
      (Dispatcher.NewPusher now genAuth I S' st).2.h.pushers H = st.h.pushers H) ∧
    (∀ r, r ∈ e.pullers →
      (Dispatcher.NewPusher now genAuth I S' st).2.h.pullers r = st.h.pullers r) := by
  have hne' : ¬ e.auth = S' := by
    rw [hauth]; exact fun h => hne h.symm
  have hres : Dispatcher.NewPusher now genAuth I S' st = (.error .unauthorized, st) := by
    simp [Dispatcher.NewPusher, hI, hget, hne']
  rw [hres]
  exact ⟨rfl, hget, rfl, fun _ _ => rfl, fun _ _ => rfl⟩

/-- In `stRoom`, a `NewPusher` on "room" with the secret "guess" is refused
and changes nothing. -/
theorem authorization_side_effect_free_witness :
    Dispatcher.NewPusher 5 "fresh" "room" "guess" stRoom = (.error .unauthorized, stRoom) :=
  (authorization_side_effect_free 5 "fresh" stRoom "room" "secret" "guess" roomNew
    (by decide) rfl rfl (by decide)).1

/-- C5 fails on the code: `Push` never reads its context.  In `stFull` the
handle 0 is not revoked and the channel of the room is full; a `Push` of
`msgHpB` whose context is done does not return a cancellation error, it stays
blocked in the send.  Once the loop of the room has taken the pending message
the send goes through, the message is on the channel, and the next turn of
the loop dispatches it.  In every state the result of `Push` is the same
whether the context is done or not, and it is never the context's error. -/
theorem push_ignores_context :
    (stFull.h.pushers 0).closed = false ∧
    (stFull.h.chans (stFull.h.pushers 0).ch).buf.length =
      (stFull.h.chans (stFull.h.pushers 0).ch).cap ∧
    stFull.h.Push true 0 msgHpB = (.blocked, stFull.h) ∧
    (∃ st2 st3, stFull.step (Event.run "room" false 0 (fun _ => 0)) = some st2 ∧
      (st2.h.Push true 0 msgHpB).1 = .ok ∧
      ((st2.h.Push true 0 msgHpB).2.chans 0).buf = [msgHpB] ∧
      State.step { st2 with h := (st2.h.Push true 0 msgHpB).2 }
        (Event.run "room" false 0 (fun _ => 0)) = some st3 ∧
      (goMapGet st3.d.entries "room").map cacheEntry.LastMessages = some [msgPosA, msgHpB]) ∧
    (∀ (ctxDone : Bool) (p : Pusher) (msg : Message) (h : Heap),
      p.Push ctxDone msg h = p.Push false msg h ∧
      (p.Push ctxDone msg h).1 ≠ .err .ctxErr) := by
  refine ⟨rfl, rfl, rfl, ⟨_, _, rfl, rfl, rfl, rfl, rfl⟩, ?_⟩
  intro ctxDone p msg h
  refine ⟨rfl, ?_⟩
  unfold Pusher.Push Heap.send
  dsimp only
  split
  · simp
  · split <;> simp

/-- C7, FIFO delivery within a queue: take a queue `q` that is attached to a
room, open and empty, and any sequence of dispatches to the room, `Pull`s and
`Close`s on queues and attachments of new queues (an attachment that is
refused changes nothing).  No dispatch, `Pull` or `Close` of the sequence
panics, and if `q` is open at the end (so it was never evicted nor closed,
since closing is irreversible) then `q` is still attached and the messages
the successful `Pull`s on `q` returned, followed by the messages `q` still
holds, are exactly the messages dispatched, in the order of dispatch: the
k-th successful `Pull` returned the k-th message dispatched, and a further
`Pull` whose context is not done returns the oldest message `q` holds. -/
theorem fifo_delivery (q Q : Nat) (evs : List RoomEvent) (e : cacheEntry) (h : Heap)
    (hq : q ∈ e.pullers) (hnd : e.pullers.Nodup) (hlt : ∀ r, r ∈ e.pullers → r < h.nPullers)
    (hflags : ∀ r, (h.pullers r).FlagsAgree)
    (hp : h.pullers q = { ch := [], cap := Q, closed := false, closedCh := false }) :
    ∃ got e' h', roomTrace q evs e h = .ok (got, e', h') ∧
      ((h'.pullers q).closed = false →
        q ∈ e'.pullers ∧
        got ++ (h'.pullers q).ch = dispatched evs ∧
        (∀ k, k < got.length → got[k]? = (dispatched evs)[k]?) ∧
        (got.length = (dispatched evs).length → got = dispatched evs) ∧
        (∀ (pick : Nat) (m : Message) (rest : List Message), (h'.pullers q).ch = m :: rest →
          (h'.pullers q).Pull false pick = (.msg m, { h'.pullers q with ch := rest }))) := by
  obtain ⟨got, e', h', htr⟩ := roomTrace_ok q evs e h hflags
  refine ⟨got, e', h', htr, ?_⟩
  intro hopen
  obtain ⟨hq', hall⟩ := roomTrace_fifo q Q evs e e' h h' [] got hq hnd hlt hp htr hopen
  have hall' : got ++ (h'.pullers q).ch = dispatched evs := by simpa using hall
  refine ⟨hq', hall', ?_, ?_, ?_⟩
  · intro k hk
    rw [← hall', List.getElem?_append_left hk]
  · intro hlen
    have hnil : (h'.pullers q).ch = [] := by
      have := congrArg List.length hall'
      rw [List.length_append] at this
      exact List.length_eq_zero.mp (by omega)
    rw [← hall', hnil, List.append_nil]
  · intro pick m rest hch
    have hfl : (h'.pullers q).closedCh = false := by
      have := roomTrace_flags q evs e e' h h' got htr hflags q
      unfold Puller.FlagsAgree at this
      rw [this]; exact hopen
    have hready : (h'.pullers q).pullReady false = [PullCase.recv m rest] := by
      simp [Puller.pullReady, hch, hfl]
    simp [Puller.Pull, hopen, hready, selectReady_singleton]

/-- The queue 0 of `exRoom`, of capacity 1: two messages dispatched, each
pulled before the next, are received in the order of dispatch. -/
theorem fifo_delivery_witness :
    ∃ got e' h', roomTrace 0 exEvents exRoom exHeap = .ok (got, e', h') ∧
      (h'.pullers 0).closed = false ∧
      got ++ (h'.pullers 0).ch = [msgPosA, msgHpB] := by
  obtain ⟨got, e', h', htr, himp⟩ := fifo_delivery 0 1 exEvents exRoom exHeap
    (by simp [exRoom]) (by simp [exRoom])
    (by intro r hr; simp [exRoom] at hr; subst hr; decide)
    (by
      intro r
      by_cases hr : r = 0
      · subst hr; rfl
      · simp [exHeap, Function.update_noteq hr, Heap.empty, Heap.new, Puller.FlagsAgree]
        rfl)
    rfl
  have hopen : (h'.pullers 0).closed = false := by
    have h2 : (roomTrace 0 exEvents exRoom exHeap).toOption.map
        (fun x => (x.2.2.pullers 0).closed) = some false := rfl
    rw [htr] at h2
    simpa [Except.toOption] using h2
  exact ⟨got, e', h', htr, hopen, (himp hopen).2.1.trans rfl⟩

/-- C8, expiry closes everything the room owns: for a room whose attached
queues and active handle are allocated and whose queues have their two
closed marks in agreement (as in every reachable state), `cacheEntry.Close`
does not panic and yields a closed room, with the same active handle and
attached queues, in which that handle is revoked and every attached queue is
closed; it is the turn `run` takes when the timer has fired and its `select`
chooses it (as it must when the channel is empty).  Afterwards `NewPusher`
and `NewPuller` on the room return the error "connection closed" and change
nothing, and whatever the program does next, every `Push` on that handle and
every `Pull` on one of those queues returns "connection closed". -/
theorem expiry_closes_everything (e : cacheEntry) (h : Heap)
    (hflags : ∀ r, r ∈ e.pullers → (h.pullers r).closedCh = true → (h.pullers r).closed = true)
    (hpullers : ∀ r, r ∈ e.pullers → r < h.nPullers)
    (hpusher : ∀ H, e.pusher = some H → H < h.nPushers) :
    ∃ e' h', e.Close h = .ok (e', h') ∧
      e' = { e with closed := true } ∧
      (∀ (sel : Nat) (pick : Nat → Nat),
        selectReady sel (e.runReady true h) = some RunCase.timer →
        e.runIter true sel pick h = .ok (.returned, e', h')) ∧
      (∀ (sel : Nat), (h.chans e.pusherCh).buf = [] →
        selectReady sel (e.runReady true h) = some RunCase.timer) ∧
      (∀ H, e.pusher = some H → (h'.pushers H).closed = true) ∧
      (∀ r, r ∈ e.pullers → (h'.pullers r).closed = true) ∧
      (∀ (h'' : Heap) (q : Nat),
        e'.NewPusher h'' = (.error .connectionClosed, e', h'') ∧
        e'.NewPuller q h'' = (.error .connectionClosed, e', h'')) ∧
      (∀ (d : Dispatcher) (evs : List Event) (st'' : State),
        State.exec { d := d, h := h' } evs = some st'' →
        (∀ H, e.pusher = some H → ∀ (ctxDone : Bool) (msg : Message),
          st''.h.Push ctxDone H msg = (.err .connectionClosed, st''.h)) ∧
        (∀ r, r ∈ e.pullers → ∀ (ctxDone : Bool) (pick : Nat),
          (st''.h.pullers r).Pull ctxDone pick =
            (.err .connectionClosed, st''.h.pullers r))) := by
  have hpc : ∀ (o : Option Nat), (h.PusherClose o).pullers = h.pullers ∧
      (h.PusherClose o).nPullers = h.nPullers ∧ (h.PusherClose o).nPushers = h.nPushers := by
    intro o; cases o <;> exact ⟨rfl, rfl, rfl⟩
  obtain ⟨hpc1, hpc2, hpc3⟩ := hpc e.pusher
  obtain ⟨h', hl⟩ := closeLoop_ok e.pullers (h.PusherClose e.pusher) (by
    intro r hr
    rw [hpc1]
    exact hflags r hr)
  obtain ⟨hpu, _, hn1, hn2, _, _, hall, _⟩ := closeLoop_spec _ _ _ hl
  have hclose : e.Close h = .ok ({ e with closed := true }, h') := by
    simp [cacheEntry.Close, hl]
  have hpushed : ∀ H, e.pusher = some H → (h'.pushers H).closed = true := by
    intro H hH
    rw [hpu, hH]
    exact Heap.PusherClose_closed h H
  refine ⟨_, h', hclose, rfl, ?_, ?_, hpushed, hall, ?_, ?_⟩
  · intro sel pick hsel
    simp [cacheEntry.runIter, hsel, hclose]
  · intro sel hbuf
    simp [cacheEntry.runReady, hbuf, selectReady_singleton]
  · intro h'' q
    exact ⟨by simp [cacheEntry.NewPusher], by simp [cacheEntry.NewPuller]⟩
  · intro d evs st'' hex
    have hlater := State.exec_later evs _ st'' hex
    constructor
    · intro H hH ctxDone msg
      have hcl : (st''.h.pushers H).closed = true := by
        apply hlater.pushers H
        · show H < h'.nPushers
          rw [hn2, hpc3]; exact hpusher H hH
        · exact hpushed H hH
      simp [Heap.Push, Pusher.Push, hcl]
    · intro r hr ctxDone pick
      have hcl : (st''.h.pullers r).closed = true := by
        apply hlater.pullers r
        · show r < h'.nPullers
          rw [hn1, hpc2]; exact hpullers r hr
        · exact hall r hr
      exact Puller.Pull_of_closed ctxDone pick hcl

/-- The room `exRoom` with its open queue 0 and its handle 0: after the
expiry both are closed. -/
theorem expiry_closes_everything_witness :
    ∃ e' h', exRoom.Close exHeap = .ok (e', h') ∧ e'.closed = true ∧
      (h'.pushers 0).closed = true ∧ (h'.pullers 0).closed = true ∧
      h'.Push false 0 msgPosA = (.err .connectionClosed, h') := by
  obtain ⟨e', h', h1, h2, _, _, h5, h6, _, h8⟩ := expiry_closes_everything exRoom exHeap
    (by intro r hr; simp [exRoom] at hr; subst hr; simp [exHeap])
    (by intro r hr; simp [exRoom] at hr; subst hr; decide)
    (by intro H hH; simp [exRoom] at hH; subst hH; decide)
  exact ⟨e', h', h1, by rw [h2], h5 0 rfl, h6 0 (by simp [exRoom]),
    (h8 exInit.d [] _ rfl).1 0 rfl false msgPosA⟩

/-- C9, close is idempotent: two calls of `Puller.Close` in a row give what
one call gives; a call on a closed queue returns without a panic and changes
nothing; the first call on an open queue closes `closedCh`, sets the flag and
drains the buffer, and the queue it leaves is closed, so that a further call
is the no-op above.  `Pusher.Close` applied twice is `Pusher.Close` applied
once, on the structure and through a pointer.  No action of the program opens
a closed queue or handle again. -/
theorem close_idempotent (p : Puller) (q : Pusher) :
    (p.Close >>= Puller.Close) = p.Close ∧
    (p.closed = true → p.Close = .ok p) ∧
    (p.closed = false → p.closedCh = false →
      p.Close = .ok { ch := [], cap := p.cap, closed := true, closedCh := true }) ∧
    (∀ p', p.Close = .ok p' → p'.closed = true ∧ p'.Close = .ok p') ∧
    q.Close.Close = q.Close ∧ q.Close.closed = true ∧
    (∀ (h : Heap) (o : Option Nat), (h.PusherClose o).PusherClose o = h.PusherClose o) ∧
    (∀ (st st' : State) (evs : List Event), st.exec evs = some st' →
      (∀ r, r < st.h.nPullers → (st.h.pullers r).closed = true →
        (st'.h.pullers r).closed = true) ∧
      (∀ r, r < st.h.nPushers → (st.h.pushers r).closed = true →
        (st'.h.pushers r).closed = true)) := by
  have hsecond : ∀ p', p.Close = .ok p' → p'.closed = true ∧ p'.Close = .ok p' :=
    fun p' hc => ⟨Puller.Close_closed hc, Puller.Close_of_closed (Puller.Close_closed hc)⟩
  refine ⟨?_, fun hc => Puller.Close_of_closed hc, fun hc hs => Puller.Close_of_open hc hs,
    hsecond, rfl, rfl, ?_, ?_⟩
  · cases hc : p.Close with
    | error err => rfl
    | ok p' =>
      show p'.Close = .ok p'
      exact (hsecond p' hc).2
  · intro h o
    cases o with
    | none => rfl
    | some r => simp [Heap.PusherClose, Pusher.Close]
  · intro st st' evs hex
    have hlater := State.exec_later evs st st' hex
    exact ⟨hlater.pullers, hlater.pushers⟩

/-- An open queue holding a message is torn down by the first `Close`, and the
second `Close` returns the closed queue as it is. -/
theorem close_idempotent_witness :
    Puller.Close { ch := [msgPosA], cap := 1, closed := false, closedCh := false } =
      .ok { ch := [], cap := 1, closed := true, closedCh := true } ∧
    Puller.Close { ch := [], cap := 1, closed := true, closedCh := true } =
      .ok { ch := [], cap := 1, closed := true, closedCh := true } :=
  ⟨(close_idempotent { ch := [msgPosA], cap := 1, closed := false, closedCh := false }
      default).2.2.1 rfl rfl,
   (close_idempotent { ch := [], cap := 1, closed := true, closedCh := true }
      default).2.1 rfl⟩

/-- C10 fails on the code: the `select` of `tryPush` may choose the send on a
closed queue.  The owner of the queue 0 of `exRoom` closes it (the event
`pullerClose`, which gives `exHeapOwnerClosed`); both the receive from
`closedCh` and the send on the drained buffer can then proceed, and when the
`select` takes the second (`pick 0 = 1`) `tryPush` returns true: after the
dispatch the closed queue is still attached and holds the message.  When the
`select` takes the first (`pick 0 = 0`) the queue is dropped, as the claim
says. -/
theorem dispatch_keeps_closed_queue :
    State.step { d := exInit.d, h := exHeap } (Event.pullerClose 0) =
      some { d := exInit.d, h := exHeapOwnerClosed } ∧
    (exHeapOwnerClosed.pullers 0).closed = true ∧
    (∃ e' h', exRoom.dispatch (fun _ => 1) msgPosA exHeapOwnerClosed = .ok (e', h') ∧
      e'.pullers = [0] ∧
      h'.pullers 0 = { ch := [msgPosA], cap := 1, closed := true, closedCh := true }) ∧
    (∃ e' h', exRoom.dispatch (fun _ => 0) msgPosA exHeapOwnerClosed = .ok (e', h') ∧
      e'.pullers = [] ∧
      h'.pullers 0 = { ch := [], cap := 1, closed := true, closedCh := true }) := by
  refine ⟨rfl, rfl, ⟨_, _, rfl, rfl, rfl⟩, ⟨_, _, rfl, rfl, rfl⟩⟩

/-! ## Generated identifiers -/

theorem idAlphabet_nodup : idAlphabet.Nodup := by
  have h : (idAlphabet.map Char.toNat).Nodup := by decide
  exact List.Nodup.of_map _ h

theorem genIDLoop_pos {i : Nat} (h : 0 < i) :
    genIDLoop i = idAlphabet.get ⟨i % idAlphabet.length, Nat.mod_lt i (by decide)⟩ ::
      genIDLoop (i / idAlphabet.length) := by
  rw [genIDLoop]
  simp [h]

/-- The loop of `genID` yields different runes for different numbers. -/
theorem genIDLoop_injective : ∀ (i j : Nat), genIDLoop i = genIDLoop j → i = j := by
  intro i
  induction i using Nat.strong_induction_on with
  | _ i ih =>
    intro j hij
    by_cases hi : 0 < i
    · by_cases hj : 0 < j
      · rw [genIDLoop_pos hi, genIDLoop_pos hj] at hij
        have hhead := (List.cons.inj hij).1
        have htail := (List.cons.inj hij).2
        have hmod : i % idAlphabet.length = j % idAlphabet.length := by
          have := (List.Nodup.get_inj_iff idAlphabet_nodup).mp hhead
          exact congrArg Fin.val this
        have hdiv : i / idAlphabet.length = j / idAlphabet.length :=
          ih _ (Nat.div_lt_self hi (by decide)) _ htail
        rw [← Nat.div_add_mod i idAlphabet.length, ← Nat.div_add_mod j idAlphabet.length,
          hmod, hdiv]
      · have hj0 : j = 0 := by omega
        rw [genIDLoop_pos hi, hj0, genIDLoop_zero] at hij
        cases hij
    · have hi0 : i = 0 := by omega
      by_cases hj : 0 < j
      · rw [genIDLoop_pos hj, hi0, genIDLoop_zero] at hij
        cases hij
      · omega

/-- The loop of `genID` computes the base-56 expansion, least significant
digit first, over the alphabet. -/
theorem genIDLoop_eq_base56Id : ∀ (i : Nat), genIDLoop i = base56Id i := by
  intro i
  induction i using Nat.strong_induction_on with
  | _ i ih =>
    by_cases hi : 0 < i
    · rw [genIDLoop_pos hi, ih _ (Nat.div_lt_self hi (by decide))]
      unfold base56Id
      rw [Nat.digits_def' (by decide) hi]
      simp only [List.map_cons, idAlphabet_length]
      congr 1
      have hlt : i % 56 < idAlphabet.length := by
        rw [idAlphabet_length]; exact Nat.mod_lt i (by decide)
      simp [List.getD_eq_getElem?_getD, List.getElem?_eq_getElem hlt, idAlphabet_length]
    · have hi0 : i = 0 := by omega
      rw [hi0, genIDLoop_zero]
      simp [base56Id]

/-- With an empty identifier `NewPusher` is the creation of the room
`genID now` with the drawn secret. -/
theorem Dispatcher.NewPusher_generated (now : Int) (genAuth auth : String) (st : State) :
    Dispatcher.NewPusher now genAuth "" auth st =
      Dispatcher.createEntry (genID now) genAuth st := by
  simp [Dispatcher.NewPusher]

/-- The creation of a room is refused exactly when the registry has the key. -/
theorem Dispatcher.createEntry_overloaded_iff (id auth : String) (st : State) :
    (Dispatcher.createEntry id auth st).1 = .error .serverOverloaded ↔
      id ∈ st.d.entries.map Prod.fst := by
  rw [← goMapGet_isSome]
  unfold Dispatcher.createEntry
  split
  · next h => simp [h]
  · next h => simp [h, newCacheEntry_eq]

/-- The keys of the registry after the creation of a room that was not refused. -/
theorem Dispatcher.createEntry_keys (id auth : String) (st : State) (k : String)
    (hnew : id ∉ st.d.entries.map Prod.fst) :
    k ∈ (Dispatcher.createEntry id auth st).2.d.entries.map Prod.fst ↔
      k = id ∨ k ∈ st.d.entries.map Prod.fst := by
  have hnone : (goMapGet st.d.entries id).isSome = false := by
    rw [goMapGet_eq_none _ _ hnew]; rfl
  have hent : (Dispatcher.createEntry id auth st).2.d.entries =
      goMapSet st.d.entries id (newCacheEntry id auth st.h).1 := by
    simp [Dispatcher.createEntry, hnone, newCacheEntry_eq]
  rw [hent]
  exact goMapSet_keys _ _ _ _

/-- C11, generated room identifiers are injective in the timestamp: for
positive Unix times `t1 ≠ t2`, `genID` yields different identifiers; the
identifier of `t1` is not empty and is the base-56 expansion of `t1`, least
significant digit first, over the 56 distinct characters of the alphabet (it
has as many runes as `t1` has base-56 digits); every lookup
`idAlphabet[i%mod]` is in bounds.  Hence, after `NewPusher` with an empty
identifier created a room at the time `t1`, a second such call at the same
time `t1` is refused as "server overloaded", and one at the time `t2` is
refused only when the identifier of `t2` was a key of the registry before the
first call: it never collides with the room generated at `t1`. -/
theorem genID_injective (t1 t2 : Int) (h1 : 0 < t1) (h2 : 0 < t2) (hne : t1 ≠ t2) :
    genID t1 ≠ genID t2 ∧
    genID t1 ≠ "" ∧
    (genID t1).data = base56Id t1.toNat ∧
    (genID t1).length = (Nat.digits 56 t1.toNat).length ∧
    idAlphabet.length = 56 ∧ idAlphabet.Nodup ∧
    (∀ i : Nat, ∃ c, idAlphabet[i % idAlphabet.length]? = some c) ∧
    (∀ d, d ∈ Nat.digits 56 t1.toNat → ∃ c, idAlphabet[d]? = some c) ∧
    (∀ (st : State) (ga1 ga2 a1 a2 : String) (p : Option Nat),
      (Dispatcher.NewPusher t1 ga1 "" a1 st).1 = .ok p →
      (Dispatcher.NewPusher t1 ga2 "" a2 (Dispatcher.NewPusher t1 ga1 "" a1 st).2).1 =
        .error .serverOverloaded ∧
      ((Dispatcher.NewPusher t2 ga2 "" a2 (Dispatcher.NewPusher t1 ga1 "" a1 st).2).1 =
          .error .serverOverloaded ↔
        genID t2 ∈ st.d.entries.map Prod.fst)) := by
  have hpos1 : 0 < t1.toNat := by omega
  have hinj : genID t1 ≠ genID t2 := by
    intro heq
    have hdata : genIDLoop t1.toNat = genIDLoop t2.toNat := by
      have := congrArg String.data heq
      simpa [genID] using this
    have := genIDLoop_injective _ _ hdata
    omega
  refine ⟨hinj, ?_, ?_, ?_, idAlphabet_length, idAlphabet_nodup, ?_, ?_, ?_⟩
  · intro heq
    have := congrArg String.data heq
    simp [genID, genIDLoop_pos hpos1] at this
  · simp [genID, genIDLoop_eq_base56Id]
  · simp [genID, String.length, genIDLoop_eq_base56Id, base56Id]
  · intro i
    have hlt : i % idAlphabet.length < idAlphabet.length := Nat.mod_lt i (by decide)
    exact ⟨_, List.getElem?_eq_getElem hlt⟩
  · intro d hd
    have hlt : d < idAlphabet.length := by
      rw [idAlphabet_length]
      exact Nat.digits_lt_base (by decide) hd
    exact ⟨_, List.getElem?_eq_getElem hlt⟩
  · intro st ga1 ga2 a1 a2 p hfirst
    rw [Dispatcher.NewPusher_generated] at hfirst
    have hnew : genID t1 ∉ st.d.entries.map Prod.fst := by
      intro hmem
      rw [(Dispatcher.createEntry_overloaded_iff _ _ _).mpr hmem] at hfirst
      cases hfirst
    simp only [Dispatcher.NewPusher_generated]
    constructor
    · rw [Dispatcher.createEntry_overloaded_iff, Dispatcher.createEntry_keys _ _ _ _ hnew]
      exact Or.inl rfl
    · rw [Dispatcher.createEntry_overloaded_iff, Dispatcher.createEntry_keys _ _ _ _ hnew]
      constructor
      · rintro (heq | hmem)
        · exact absurd heq.symm hinj
        · exact hmem
      · exact Or.inr

/-- The identifiers of the seconds 5 and 61 differ, and that of 5 is not empty. -/
theorem genID_injective_witness : genID 5 ≠ genID 61 ∧ genID 5 ≠ "" :=
  ⟨(genID_injective 5 61 (by decide) (by decide) (by decide)).1,
   (genID_injective 5 61 (by decide) (by decide) (by decide)).2.1⟩

end Cache
